import Mathlib

/-!
Shallow embedding of the podwhisperer post-transcription refinement core
(`src/lambdas/pipeline/...` and `src/lambdas/pipeline/utils/captions/...`).

Strings are Lean `String`s; the JS string helpers (split on whitespace, trim,
join, replaceAll, indexOf-counting) are re-implemented at the `List Char`
level, faithful to the ECMAScript behaviour used by the code.  JS numbers are
modelled by `ℚ` (exact arithmetic; the code performs no operation where float
rounding changes a comparison in the claims considered, except where noted in
comments).  In-place mutation is modelled by explicit state passing: a
function that mutates its argument returns the new value.
-/

namespace Podwhisperer

/-! ## Character-level string helpers -/

theorem dropWhile_length_le {α : Type} (p : α → Bool) :
    ∀ (l : List α), (l.dropWhile p).length ≤ l.length := by
  intro l; induction l with
  | nil => simp [List.dropWhile]
  | cons a l ih =>
    by_cases h : p a
    · simp only [List.dropWhile, h]
      have := ih; simp only [List.length_cons]; omega
    · simp [List.dropWhile, h]

/-- Recursion worker for `splitRuns`; the fuel argument bounds the number of
iterations (each step consumes at least one character, so `cs.length` fuel is
always enough) and makes the recursion structural, hence kernel-reducible. -/
def splitRunsAux : Nat → List Char → List (List Char)
  | 0, _ => []
  | _, [] => []
  | fuel + 1, c :: cs =>
    if c.isWhitespace then splitRunsAux fuel cs
    else (c :: cs.takeWhile (fun d => ¬ d.isWhitespace)) ::
      splitRunsAux fuel (cs.dropWhile (fun d => ¬ d.isWhitespace))

/-- Maximal runs of non-whitespace characters (the result of the JS idiom
`text.split(/\s+/).filter(w => w.length > 0)` at character level). -/
def splitRuns (cs : List Char) : List (List Char) := splitRunsAux cs.length cs

/-- Strip leading whitespace at character level. -/
def dropWs (cs : List Char) : List Char := cs.dropWhile Char.isWhitespace

/-- JS `String.prototype.trim` at character level: strip whitespace at both
ends. -/
def trimChars (cs : List Char) : List Char :=
  ((dropWs cs).reverse.dropWhile Char.isWhitespace).reverse

/-- Join character lists with a single separator character between them
(JS `Array.prototype.join` with a one-character separator). -/
def joinChars (sep : Char) : List (List Char) → List Char
  | [] => []
  | [w] => w
  | w :: ws => w ++ sep :: joinChars sep ws

/-- JS `words.join(' ')` on strings. -/
def wordJoin (ws : List String) : String := ⟨joinChars ' ' (ws.map String.toList)⟩

/-- JS `lines.join('\n')` on strings. -/
def lineJoin (ws : List String) : String := ⟨joinChars '\n' (ws.map String.toList)⟩

/-- JS `String.prototype.trim` on strings. -/
def strTrim (s : String) : String := ⟨trimChars s.toList⟩

/-- `textToWords` (src/lambdas/pipeline/utils/segment-reconciliation.ts):
split on whitespace runs and drop empty tokens, preserving case and attached
punctuation. -/
def textToWords (text : String) : List String :=
  (splitRuns text.toList).map (fun cs => ⟨cs⟩)

/-- `reconstructText` (segment-reconciliation.ts): `words.join(' ').trim()`. -/
def reconstructText (words : List String) : String := strTrim (wordJoin words)

/-- Non-overlapping occurrence count of `pat` in a character list, scanning
left to right: the result of the JS loop
`idx = s.indexOf(pat); while (idx !== -1) { count++; idx = s.indexOf(pat, idx + pat.length) }`.
(For the empty pattern that JS loop does not terminate; no rule in the
repository has an empty search string, and we return 0 there.) -/
def countOccCharsAux (pat : List Char) : Nat → List Char → Nat
  | 0, _ => 0
  | _, [] => 0
  | fuel + 1, c :: cs =>
    if pat ≠ [] ∧ pat.isPrefixOf (c :: cs) then
      1 + countOccCharsAux pat fuel ((c :: cs).drop pat.length)
    else countOccCharsAux pat fuel cs

def countOccChars (pat cs : List Char) : Nat := countOccCharsAux pat cs.length cs

/-- JS `String.prototype.replaceAll` with a literal pattern, at character
level: replace non-overlapping occurrences left to right.  (The empty-pattern
JS edge case, which interleaves the replacement, is not modelled; no rule has
an empty search string.) -/
def replaceAllCharsAux (pat rep : List Char) : Nat → List Char → List Char
  | 0, _ => []
  | _, [] => []
  | fuel + 1, c :: cs =>
    if pat ≠ [] ∧ pat.isPrefixOf (c :: cs) then
      rep ++ replaceAllCharsAux pat rep fuel ((c :: cs).drop pat.length)
    else c :: replaceAllCharsAux pat rep fuel cs

def replaceAllChars (pat rep cs : List Char) : List Char :=
  replaceAllCharsAux pat rep cs.length cs

/-- `String.prototype.replaceAll` with a literal pattern, on strings. -/
def strReplaceAll (s pat rep : String) : String :=
  ⟨replaceAllChars pat.toList rep.toList s.toList⟩

/-- Occurrence count on strings. -/
def strCountOcc (s pat : String) : Nat := countOccChars pat.toList s.toList

/-- JS `String.prototype.endsWith` for a (usually one-character) suffix. -/
def strEndsWith (s suffix : String) : Bool :=
  suffix.toList.reverse.isPrefixOf s.toList.reverse

/-- JS `String.prototype.padStart(n, c)`. -/
def padStart (s : String) (n : Nat) (c : Char) : String :=
  if n ≤ s.length then s else ⟨List.replicate (n - s.length) c ++ s.toList⟩

/-! ## Data model (src/lambdas/pipeline/types.ts) -/

/-- A single word from WhisperX output.  `score` distinguishes an absent field
(`none`), the JS `null` "adjusted" sentinel (`some none`) and a numeric
confidence (`some (some q)`). -/
structure WhisperxWord where
  word : String
  start : Option ℚ := none
  «end» : Option ℚ := none
  speaker : Option String := none
  score : Option (Option ℚ) := none
deriving Repr, DecidableEq

/-- A segment from WhisperX output. -/
structure WhisperxSegment where
  start : ℚ
  «end» : ℚ
  text : String
  speaker : Option String := none
  words : Option (List WhisperxWord) := none
deriving Repr, DecidableEq

/-- WhisperX raw transcription result. -/
structure WhisperxResult where
  segments : List WhisperxSegment
deriving Repr, DecidableEq

/-- Fallback word value for (never-occurring) out-of-range array accesses. -/
def defaultWord : WhisperxWord := { word := "" }

/-- Fallback segment value for indexing into segment lists. -/
def defaultSegment : WhisperxSegment := { start := 0, «end» := 0, text := "" }

/-! ## LCS / diff (src/lambdas/pipeline/utils/lcs.ts) -/

/-- The DP table of `computeLCS`: `lcsTable a b i j` is the value `dp[i][j]`
built by the double loop (`dp[i][j] = dp[i-1][j-1] + 1` on a match, otherwise
`max(dp[i-1][j], dp[i][j-1])`; the borders are 0). -/
def lcsTableAux (a b : List String) : Nat → Nat → Nat → Nat
  | 0, _, _ => 0
  | _ + 1, 0, _ => 0
  | _ + 1, _ + 1, 0 => 0
  | fuel + 1, i + 1, j + 1 =>
    if a.getD i "" = b.getD j "" then lcsTableAux a b fuel i j + 1
    else max (lcsTableAux a b fuel i (j + 1)) (lcsTableAux a b fuel (i + 1) j)

def lcsTable (a b : List String) (i j : Nat) : Nat := lcsTableAux a b (i + j) i j

/-- Result record of `computeLCS`. -/
structure LCSResult where
  lcs : List String
  aIndices : List Nat
  bIndices : List Nat
deriving Repr, DecidableEq

/-- The backtrack loop of `computeLCS`, starting from position `(i, j)` of the
DP table.  The JS loop `unshift`s each match while walking towards `(0, 0)`,
so the recursive translation appends the current match after the result of the
smaller position.  Ties move left (decrement `j`) unless
`dp[i-1][j] > dp[i][j-1]`.  The fuel argument (`i + j` at the top call, which
every iteration keeps sufficient since `i + j` drops by at least one) makes
the recursion structural. -/
def lcsBacktrackAux (a b : List String) : Nat → Nat → Nat → LCSResult
  | 0, _, _ => ⟨[], [], []⟩
  | _ + 1, 0, _ => ⟨[], [], []⟩
  | _ + 1, _ + 1, 0 => ⟨[], [], []⟩
  | fuel + 1, i + 1, j + 1 =>
    if a.getD i "" = b.getD j "" then
      let r := lcsBacktrackAux a b fuel i j
      ⟨r.lcs ++ [a.getD i ""], r.aIndices ++ [i], r.bIndices ++ [j]⟩
    else if lcsTable a b i (j + 1) > lcsTable a b (i + 1) j then
      lcsBacktrackAux a b fuel i (j + 1)
    else
      lcsBacktrackAux a b fuel (i + 1) j

def lcsBacktrack (a b : List String) (i j : Nat) : LCSResult :=
  lcsBacktrackAux a b (i + j) i j

/-- `computeLCS` (lcs.ts): DP table plus backtrack from `(m, n)`. -/
def computeLCS (a b : List String) : LCSResult := lcsBacktrack a b a.length b.length

/-- Diff operation kind. -/
inductive DiffOp | keep | remove | add
deriving Repr, DecidableEq

/-- One diff operation (lcs.ts `DiffOperation`). -/
structure DiffOperation where
  op : DiffOp
  originalIndex : Option Nat := none
  patchedIndex : Option Nat := none
  word : String
deriving Repr, DecidableEq

/-- The pointer walk of `computeDiff`.  `origKept`/`patchKept` are the index
lists returned by `computeLCS`; the JS `Set` membership tests are list
membership.  The JS comparison `origKept[keptPtr] === origPtr` on a possibly
out-of-range index is `origKept.get? keptPtr = some origPtr`.  The final
"safety" branch of the source advances a pointer without emitting an
operation. -/
def diffLoopAux (original patched : List String) (origKept patchKept : List Nat) :
    Nat → Nat → Nat → Nat → List DiffOperation
  | 0, _, _, _ => []
  | fuel + 1, origPtr, patchPtr, keptPtr =>
    if origPtr < original.length ∨ patchPtr < patched.length then
      if origPtr ∈ origKept ∧ patchPtr ∈ patchKept ∧
          origKept.get? keptPtr = some origPtr ∧ patchKept.get? keptPtr = some patchPtr then
        ⟨.keep, some origPtr, some patchPtr, original.getD origPtr ""⟩ ::
          diffLoopAux original patched origKept patchKept fuel
            (origPtr + 1) (patchPtr + 1) (keptPtr + 1)
      else if origPtr ∉ origKept ∧ origPtr < original.length then
        ⟨.remove, some origPtr, none, original.getD origPtr ""⟩ ::
          diffLoopAux original patched origKept patchKept fuel (origPtr + 1) patchPtr keptPtr
      else if patchPtr ∉ patchKept ∧ patchPtr < patched.length then
        ⟨.add, none, some patchPtr, patched.getD patchPtr ""⟩ ::
          diffLoopAux original patched origKept patchKept fuel origPtr (patchPtr + 1) keptPtr
      else if origPtr < original.length then
        diffLoopAux original patched origKept patchKept fuel (origPtr + 1) patchPtr keptPtr
      else
        diffLoopAux original patched origKept patchKept fuel origPtr (patchPtr + 1)  keptPtr
    else []

/-- The pointer walk with enough fuel to run to completion: every iteration
decreases `(length - origPtr) + (length - patchPtr)` by at least one, so
`original.length + patched.length + 1` iterations always reach the loop
exit. -/
def diffLoop (original patched : List String) (origKept patchKept : List Nat)
    (origPtr patchPtr keptPtr : Nat) : List DiffOperation :=
  diffLoopAux original patched origKept patchKept
    (original.length + patched.length + 1) origPtr patchPtr keptPtr

/-- `computeDiff` (lcs.ts): run the pointer walk from `(0, 0, 0)` over the
kept-index lists of `computeLCS`. -/
def computeDiff (original patched : List String) : List DiffOperation :=
  let r := computeLCS original patched
  diffLoop original patched r.aIndices r.bIndices 0 0 0

/-- Structural facts about the backtrack of `computeLCS` that the pointer walk
of `computeDiff` relies on: the two index lists have equal length, are
strictly increasing, bounded by the start position, and matched positions hold
equal words.  (None of this depends on the DP table being a correct LCS
table.) -/
theorem lcsBacktrackAux_spec (a b : List String) (fuel i j : Nat) :
    (lcsBacktrackAux a b fuel i j).aIndices.length =
      (lcsBacktrackAux a b fuel i j).bIndices.length ∧
    (lcsBacktrackAux a b fuel i j).aIndices.Pairwise (· < ·) ∧
    (lcsBacktrackAux a b fuel i j).bIndices.Pairwise (· < ·) ∧
    (∀ x ∈ (lcsBacktrackAux a b fuel i j).aIndices, x < i) ∧
    (∀ x ∈ (lcsBacktrackAux a b fuel i j).bIndices, x < j) ∧
    (∀ t ia ib, (lcsBacktrackAux a b fuel i j).aIndices.get? t = some ia →
      (lcsBacktrackAux a b fuel i j).bIndices.get? t = some ib →
      a.getD ia "" = b.getD ib "") := by
  induction fuel, i, j using lcsBacktrackAux.induct a b with
  | case1 i j => simp [lcsBacktrackAux]
  | case2 fuel j => simp [lcsBacktrackAux]
  | case3 fuel i => simp [lcsBacktrackAux]
  | case4 fuel i j hab ih =>
    obtain ⟨ihlen, ihpa, ihpb, ihba, ihbb, ihm⟩ := ih
    rw [lcsBacktrackAux]
    simp only [if_pos hab]
    refine ⟨by simp [ihlen], ?_, ?_, ?_, ?_, ?_⟩
    · exact List.pairwise_append.2 ⟨ihpa, List.pairwise_singleton _ _,
        fun x hx y hy => by simp at hy; subst hy; exact ihba x hx⟩
    · exact List.pairwise_append.2 ⟨ihpb, List.pairwise_singleton _ _,
        fun x hx y hy => by simp at hy; subst hy; exact ihbb x hx⟩
    · intro x hx
      rcases List.mem_append.1 hx with hx | hx
      · exact Nat.lt_succ_of_lt (ihba x hx)
      · simp at hx; omega
    · intro x hx
      rcases List.mem_append.1 hx with hx | hx
      · exact Nat.lt_succ_of_lt (ihbb x hx)
      · simp at hx; omega
    · intro t ia ib ha hb
      by_cases ht : t < (lcsBacktrackAux a b fuel i j).aIndices.length
      · rw [List.get?_append ht] at ha
        rw [List.get?_append
          (by omega : t < (lcsBacktrackAux a b fuel i j).bIndices.length)] at hb
        exact ihm t ia ib ha hb
      · rw [List.get?_append_right (by omega)] at ha
        rw [List.get?_append_right
          (by omega : (lcsBacktrackAux a b fuel i j).bIndices.length ≤ t)] at hb
        have hta : t - (lcsBacktrackAux a b fuel i j).aIndices.length = 0 := by
          by_contra hne
          rcases Nat.exists_eq_succ_of_ne_zero hne with ⟨k, hk⟩
          rw [hk] at ha; simp at ha
        rw [hta] at ha
        rw [ihlen] at hta
        rw [hta] at hb
        simp at ha hb
        rw [← ha, ← hb]
        exact hab
  | case5 fuel i j hab hdp ih =>
    obtain ⟨ihlen, ihpa, ihpb, ihba, ihbb, ihm⟩ := ih
    rw [lcsBacktrackAux]
    simp only [if_neg hab, if_pos hdp]
    exact ⟨ihlen, ihpa, ihpb, fun x hx => Nat.lt_succ_of_lt (ihba x hx), ihbb, ihm⟩
  | case6 fuel i j hab hdp ih =>
    obtain ⟨ihlen, ihpa, ihpb, ihba, ihbb, ihm⟩ := ih
    rw [lcsBacktrackAux]
    simp only [if_neg hab, if_neg hdp]
    exact ⟨ihlen, ihpa, ihpb, ihba, fun x hx => Nat.lt_succ_of_lt (ihbb x hx), ihm⟩

/-- The spec facts transported to the `lcsBacktrack` wrapper. -/
theorem lcsBacktrack_spec (a b : List String) (i j : Nat) :
    (lcsBacktrack a b i j).aIndices.length = (lcsBacktrack a b i j).bIndices.length ∧
    (lcsBacktrack a b i j).aIndices.Pairwise (· < ·) ∧
    (lcsBacktrack a b i j).bIndices.Pairwise (· < ·) ∧
    (∀ x ∈ (lcsBacktrack a b i j).aIndices, x < i) ∧
    (∀ x ∈ (lcsBacktrack a b i j).bIndices, x < j) ∧
    (∀ t ia ib, (lcsBacktrack a b i j).aIndices.get? t = some ia →
      (lcsBacktrack a b i j).bIndices.get? t = some ib → a.getD ia "" = b.getD ib "") :=
  lcsBacktrackAux_spec a b (i + j) i j

/-- Words of the KEEP and ADD operations, in order. -/
def keepAddWords (ops : List DiffOperation) : List String :=
  ops.filterMap fun o => match o.op with
    | .remove => none
    | _ => some o.word

/-- Words of the KEEP and REMOVE operations, in order. -/
def keepRemoveWords (ops : List DiffOperation) : List String :=
  ops.filterMap fun o => match o.op with
    | .add => none
    | _ => some o.word

/-- In a strictly increasing index list, if all entries before position `k`
are `< o`, the entry at `k` (if any) is `≥ o`, and `o` occurs in the list,
then `o` is exactly the entry at position `k`. -/
theorem next_kept_of_mem {l : List Nat} (hp : l.Pairwise (· < ·)) {k o : Nat}
    (hpast : ∀ t < k, ∀ x, l.get? t = some x → x < o)
    (hnext : ∀ x, l.get? k = some x → o ≤ x)
    (hmem : o ∈ l) : l.get? k = some o := by
  rcases List.mem_iff_get?.1 hmem with ⟨t, ht⟩
  rcases Nat.lt_or_ge t k with hlt | hge
  · exact absurd (hpast t hlt o ht) (lt_irrefl o)
  · rcases Nat.eq_or_lt_of_le hge with heq | hlt
    · subst heq; exact ht
    · have htlen : t < l.length := by
        rcases List.get?_eq_some.1 ht with ⟨hh, _⟩; exact hh
      have hklen : k < l.length := lt_trans hlt htlen
      have h1 : o ≤ l.get ⟨k, hklen⟩ := hnext _ (List.get?_eq_get hklen)
      have h2 : l.get ⟨k, hklen⟩ < l.get ⟨t, htlen⟩ :=
        List.pairwise_iff_get.1 hp ⟨k, hklen⟩ ⟨t, htlen⟩ hlt
      have h3 : l.get ⟨t, htlen⟩ = o := by
        rw [List.get?_eq_get htlen] at ht; exact (Option.some.inj ht)
      omega

/-- In a strictly increasing index list, the entry after position `k` is
strictly larger than the entry at `k`. -/
theorem next_kept_succ {l : List Nat} (hp : l.Pairwise (· < ·)) {k o : Nat}
    (hk : l.get? k = some o) : ∀ x, l.get? (k + 1) = some x → o + 1 ≤ x := by
  intro x hx
  have hxlen : k + 1 < l.length := by
    rcases List.get?_eq_some.1 hx with ⟨hh, _⟩; exact hh
  have hklen : k < l.length := by omega
  have h2 : l.get ⟨k, hklen⟩ < l.get ⟨k + 1, hxlen⟩ :=
    List.pairwise_iff_get.1 hp ⟨k, hklen⟩ ⟨k + 1, hxlen⟩ (by simp)
  have h3 : l.get ⟨k, hklen⟩ = o := by
    rw [List.get?_eq_get hklen] at hk; exact Option.some.inj hk
  have h4 : l.get ⟨k + 1, hxlen⟩ = x := by
    rw [List.get?_eq_get hxlen] at hx; exact Option.some.inj hx
  omega

/-- Main invariant lemma for the pointer walk: starting from pointers that
agree with the kept-index lists, the emitted KEEP∪REMOVE words are exactly the
unconsumed originals and the KEEP∪ADD words are exactly the unconsumed patched
words; every KEEP/REMOVE operation carries an original index.  In particular
the "safety" branch of the source is never taken. -/
theorem diffLoopAux_spec (original patched : List String) (oK pK : List Nat)
    (hlen : oK.length = pK.length)
    (hpa : oK.Pairwise (· < ·)) (hpb : pK.Pairwise (· < ·))
    (hba : ∀ x ∈ oK, x < original.length) (hbb : ∀ x ∈ pK, x < patched.length)
    (hm : ∀ t ia ib, oK.get? t = some ia → pK.get? t = some ib →
      original.getD ia "" = patched.getD ib "")
    (fuel o p k : Nat) :
    (original.length - o) + (patched.length - p) < fuel →
    (∀ t < k, ∀ x, oK.get? t = some x → x < o) →
    (∀ t < k, ∀ x, pK.get? t = some x → x < p) →
    (∀ x, oK.get? k = some x → o ≤ x) →
    (∀ x, pK.get? k = some x → p ≤ x) →
    keepRemoveWords (diffLoopAux original patched oK pK fuel o p k) = original.drop o ∧
    keepAddWords (diffLoopAux original patched oK pK fuel o p k) = patched.drop p ∧
    ∀ d ∈ diffLoopAux original patched oK pK fuel o p k,
      d.op ≠ .add → d.originalIndex.isSome := by
  induction fuel, o, p, k using diffLoopAux.induct original patched oK pK with
  | case1 o p k =>
    intro hfuel _ _ _ _
    omega
  | case2 fuel o p k h hc ih =>
    intro hfuel hpo hpp hno hnp
    obtain ⟨hmo, hmp, hgo, hgp⟩ := hc
    have holt : o < original.length := hba o hmo
    have hplt : p < patched.length := hbb p hmp
    have hword : original.getD o "" = patched.getD p "" := hm k o p hgo hgp
    have hpo' : ∀ t < k + 1, ∀ x, oK.get? t = some x → x < o + 1 := by
      intro t ht x hx
      rcases Nat.lt_or_ge t k with h1 | h1
      · exact Nat.lt_succ_of_lt (hpo t h1 x hx)
      · have ht' : t = k := by omega
        subst ht'; rw [hgo] at hx
        have := Option.some.inj hx; omega
    have hpp' : ∀ t < k + 1, ∀ x, pK.get? t = some x → x < p + 1 := by
      intro t ht x hx
      rcases Nat.lt_or_ge t k with h1 | h1
      · exact Nat.lt_succ_of_lt (hpp t h1 x hx)
      · have ht' : t = k := by omega
        subst ht'; rw [hgp] at hx
        have := Option.some.inj hx; omega
    obtain ⟨ih1, ih2, ih3⟩ :=
      ih (by omega) hpo' hpp' (next_kept_succ hpa hgo) (next_kept_succ hpb hgp)
    rw [diffLoopAux, if_pos h, if_pos ⟨hmo, hmp, hgo, hgp⟩]
    refine ⟨?_, ?_, ?_⟩
    · simp only [keepRemoveWords, List.filterMap_cons] at ih1 ⊢
      rw [List.drop_eq_get_cons holt, ih1]
      congr 1
      simp [List.getD_eq_get?, List.get?_eq_get holt, List.getElem?_eq_getElem holt]
    · simp only [keepAddWords, List.filterMap_cons] at ih2 ⊢
      rw [List.drop_eq_get_cons hplt, ih2]
      congr 1
      rw [hword]
      simp [List.getD_eq_get?, List.get?_eq_get hplt, List.getElem?_eq_getElem hplt]
    · intro d hd hop
      rcases List.mem_cons.1 hd with rfl | hd
      · rfl
      · exact ih3 d hd hop
  | case3 fuel o p k h hnc hc ih =>
    intro hfuel hpo hpp hno hnp
    obtain ⟨hmo, holt⟩ := hc
    have hno' : ∀ x, oK.get? k = some x → o + 1 ≤ x := by
      intro x hx
      have h1 := hno x hx
      have h2 : x ∈ oK := List.get?_mem hx
      have h3 : x ≠ o := fun hxe => hmo (hxe ▸ h2)
      omega
    obtain ⟨ih1, ih2, ih3⟩ :=
      ih (by omega) (fun t ht x hx => Nat.lt_succ_of_lt (hpo t ht x hx)) hpp hno' hnp
    rw [diffLoopAux, if_pos h, if_neg (fun hc' => hmo hc'.1), if_pos ⟨hmo, holt⟩]
    refine ⟨?_, ?_, ?_⟩
    · simp only [keepRemoveWords, List.filterMap_cons] at ih1 ⊢
      rw [List.drop_eq_get_cons holt, ih1]
      congr 1
      simp [List.getD_eq_get?, List.get?_eq_get holt, List.getElem?_eq_getElem holt]
    · simp only [keepAddWords, List.filterMap_cons] at ih2 ⊢
      exact ih2
    · intro d hd hop
      rcases List.mem_cons.1 hd with rfl | hd
      · rfl
      · exact ih3 d hd hop
  | case4 fuel o p k h hnc hnr hc ih =>
    intro hfuel hpo hpp hno hnp
    obtain ⟨hmp, hplt⟩ := hc
    have hnp' : ∀ x, pK.get? k = some x → p + 1 ≤ x := by
      intro x hx
      have h1 := hnp x hx
      have h2 : x ∈ pK := List.get?_mem hx
      have h3 : x ≠ p := fun hxe => hmp (hxe ▸ h2)
      omega
    obtain ⟨ih1, ih2, ih3⟩ :=
      ih (by omega) hpo (fun t ht x hx => Nat.lt_succ_of_lt (hpp t ht x hx)) hno hnp'
    rw [diffLoopAux, if_pos h, if_neg hnc, if_neg hnr, if_pos ⟨hmp, hplt⟩]
    refine ⟨?_, ?_, ?_⟩
    · simp only [keepRemoveWords, List.filterMap_cons] at ih1 ⊢
      exact ih1
    · simp only [keepAddWords, List.filterMap_cons] at ih2 ⊢
      rw [List.drop_eq_get_cons hplt, ih2]
      congr 1
      simp [List.getD_eq_get?, List.get?_eq_get hplt, List.getElem?_eq_getElem hplt]
    · intro d hd hop
      rcases List.mem_cons.1 hd with rfl | hd
      · exact absurd rfl hop
      · exact ih3 d hd hop
  | case5 fuel o p k h hnc hnr hna ho ih =>
    intro hfuel hpo hpp hno hnp
    exfalso
    have hmo : o ∈ oK := by
      by_contra hx; exact hnr ⟨hx, ho⟩
    have hgo : oK.get? k = some o := next_kept_of_mem hpa hpo hno hmo
    have hklen : k < oK.length := by
      rcases List.get?_eq_some.1 hgo with ⟨hh, _⟩; exact hh
    have hklen' : k < pK.length := hlen ▸ hklen
    have hgpb : pK.get? k = some (pK.get ⟨k, hklen'⟩) := List.get?_eq_get hklen'
    have hple : p ≤ pK.get ⟨k, hklen'⟩ := hnp _ hgpb
    have hpblt : pK.get ⟨k, hklen'⟩ < patched.length := hbb _ (List.get_mem pK k hklen')
    have hpn : p < patched.length := lt_of_le_of_lt hple hpblt
    have hmp : p ∈ pK := by
      by_contra hx; exact hna ⟨hx, hpn⟩
    exact hnc ⟨hmo, hmp, hgo, next_kept_of_mem hpb hpp hnp hmp⟩
  | case6 fuel o p k h hnc hnr hna hno2 ih =>
    intro hfuel hpo hpp hno hnp
    exfalso
    have hpn : p < patched.length := by
      rcases h with h | h
      · exact absurd h hno2
      · exact h
    have hmp : p ∈ pK := by
      by_contra hx; exact hna ⟨hx, hpn⟩
    have hgp : pK.get? k = some p := next_kept_of_mem hpb hpp hnp hmp
    have hklen' : k < pK.length := by
      rcases List.get?_eq_some.1 hgp with ⟨hh, _⟩; exact hh
    have hklen : k < oK.length := hlen ▸ hklen'
    have hgoa : oK.get? k = some (oK.get ⟨k, hklen⟩) := List.get?_eq_get hklen
    have hole : o ≤ oK.get ⟨k, hklen⟩ := hno _ hgoa
    have hoblt : oK.get ⟨k, hklen⟩ < original.length := hba _ (List.get_mem oK k hklen)
    exact hno2 (lt_of_le_of_lt hole hoblt)
  | case7 fuel o p k h =>
    intro hfuel hpo hpp hno hnp
    push_neg at h
    rw [diffLoopAux, if_neg (by push_neg; exact h)]
    refine ⟨?_, ?_, by simp⟩
    · rw [(List.drop_eq_nil_iff_le).2 h.1]; rfl
    · rw [(List.drop_eq_nil_iff_le).2 h.2]; rfl

/-- The invariant transported to the `diffLoop` wrapper: the default fuel is
always sufficient. -/
theorem diffLoop_spec (original patched : List String) (oK pK : List Nat)
    (hlen : oK.length = pK.length)
    (hpa : oK.Pairwise (· < ·)) (hpb : pK.Pairwise (· < ·))
    (hba : ∀ x ∈ oK, x < original.length) (hbb : ∀ x ∈ pK, x < patched.length)
    (hm : ∀ t ia ib, oK.get? t = some ia → pK.get? t = some ib →
      original.getD ia "" = patched.getD ib "")
    (o p k : Nat) :
    (∀ t < k, ∀ x, oK.get? t = some x → x < o) →
    (∀ t < k, ∀ x, pK.get? t = some x → x < p) →
    (∀ x, oK.get? k = some x → o ≤ x) →
    (∀ x, pK.get? k = some x → p ≤ x) →
    keepRemoveWords (diffLoop original patched oK pK o p k) = original.drop o ∧
    keepAddWords (diffLoop original patched oK pK o p k) = patched.drop p ∧
    ∀ d ∈ diffLoop original patched oK pK o p k, d.op ≠ .add → d.originalIndex.isSome :=
  diffLoopAux_spec original patched oK pK hlen hpa hpb hba hbb hm
    (original.length + patched.length + 1) o p k (by omega)

/-- `computeDiff` fully consumes both inputs: the KEEP∪REMOVE projection of
the operation stream is the original word array and the KEEP∪ADD projection
is the patched word array; every KEEP/REMOVE operation carries its original
index. -/
theorem computeDiff_consumes (original patched : List String) :
    keepRemoveWords (computeDiff original patched) = original ∧
    keepAddWords (computeDiff original patched) = patched ∧
    ∀ d ∈ computeDiff original patched, d.op ≠ .add → d.originalIndex.isSome := by
  obtain ⟨hlen, hpa, hpb, hba, hbb, hm⟩ :=
    lcsBacktrack_spec original patched original.length patched.length
  have := diffLoop_spec original patched
    (computeLCS original patched).aIndices (computeLCS original patched).bIndices
    hlen hpa hpb hba hbb hm 0 0 0
    (by omega) (by omega) (fun x _ => Nat.zero_le x) (fun x _ => Nat.zero_le x)
  simpa [computeDiff] using this

/-! ## Segment reconciliation (src/lambdas/pipeline/utils/segment-reconciliation.ts) -/

/-- `getSegmentWordsText`: text from the words array, falling back to the
`text` field. -/
def getSegmentWordsText (segment : WhisperxSegment) : String :=
  match segment.words with
  | some ws => if ws.length > 0 then wordJoin (ws.map (·.word)) else segment.text
  | none => segment.text

/-- One iteration of the diff walk of `reconcileSegment` (the `for (const op
of diff)` body).  The state is the surviving-word list in reverse order (the
source pushes at the end and mutates `result[result.length - 1]`; keeping the
list reversed turns both into head operations) together with the
`pendingRemoval` buffer.  JS `x !== undefined` guards become matches on the
`Option` fields. -/
def reconcileStep (segment : WhisperxSegment) (originalWords : List WhisperxWord)
    (st : List WhisperxWord × Option WhisperxWord) (op : DiffOperation) :
    List WhisperxWord × Option WhisperxWord :=
  match op.op, op.originalIndex with
  | .keep, some oi =>
    let origWord := originalWords.getD oi defaultWord
    let newWord := { origWord with word := op.word }
    (match st.2 with
     | some pr =>
       ({ newWord with
            start := match pr.start with | some s => some s | none => newWord.start,
            score := some none } :: st.1, none)
     | none => (newWord :: st.1, st.2))
  | .keep, none => st
  | .remove, some oi =>
    let removedWord := originalWords.getD oi defaultWord
    (match st.1 with
     | prev :: rest =>
       ({ prev with
            «end» := match removedWord.«end» with | some e => some e | none => prev.«end»,
            score := some none } :: rest, st.2)
     | [] =>
       match st.2 with
       | none => ([], some removedWord)
       | some pr =>
         ([], some { pr with
             «end» := match removedWord.«end» with | some e => some e | none => pr.«end» }))
  | .remove, none => st
  | .add, _ =>
    let newWord : WhisperxWord := { word := op.word, score := some none }
    match st.1 with
    | prev :: rest =>
      let p := match prev.start, prev.«end» with
        | some s, some e =>
          ({ newWord with start := some ((s + e) / 2), «end» := some e },
           { prev with «end» := some ((s + e) / 2), score := some none })
        | _, _ => (newWord, prev)
      let nw := match prev.speaker with
        | some sp => { p.1 with speaker := some sp }
        | none => p.1
      (nw :: p.2 :: rest, st.2)
    | [] =>
      match st.2 with
      | some pr =>
        ([{ newWord with start := pr.start, «end» := pr.«end», speaker := pr.speaker }], none)
      | none =>
        ([{ newWord with start := some segment.start, «end» := some segment.start }], st.2)

/-- `reconcileSegment`: reconcile patched words with the original word-level
timing.  The source mutates the segment in place; here the updated segment is
returned. -/
def reconcileSegment (segment : WhisperxSegment) (patchedWords : List String) :
    WhisperxSegment :=
  match segment.words with
  | none => { segment with text := reconstructText patchedWords }
  | some originalWords =>
    if originalWords.length = 0 then
      { segment with text := reconstructText patchedWords }
    else if originalWords.length = patchedWords.length then
      { segment with
          words := some (List.zipWith (fun w p => { w with word := p }) originalWords patchedWords),
          text := reconstructText patchedWords }
    else
      let diff := computeDiff (originalWords.map (·.word)) patchedWords
      let st := diff.foldl (reconcileStep segment originalWords) ([], none)
      { segment with words := some st.1.reverse, text := reconstructText patchedWords }

/-! ### Tokens produced by whitespace splitting are non-empty and
whitespace-free, and joining them back needs no trim. -/

theorem splitRunsAux_tokens : ∀ (fuel : Nat) (cs : List Char), ∀ w ∈ splitRunsAux fuel cs,
    w ≠ [] ∧ ∀ c ∈ w, ¬ c.isWhitespace := by
  intro fuel cs
  induction fuel, cs using splitRunsAux.induct with
  | case1 _ => simp [splitRunsAux]
  | case2 _ => simp [splitRunsAux]
  | case3 fuel c cs hws ih =>
    rw [splitRunsAux]; simp only [if_pos hws]; exact ih
  | case4 fuel c cs hws ih =>
    rw [splitRunsAux]; simp only [if_neg hws]
    intro w hw
    rcases List.mem_cons.1 hw with rfl | hw
    · refine ⟨by simp, ?_⟩
      intro d hd
      rcases List.mem_cons.1 hd with rfl | hd
      · exact hws
      · have := List.mem_takeWhile_imp hd
        simpa using this
    · exact ih w hw

theorem splitRuns_tokens : ∀ (cs : List Char), ∀ w ∈ splitRuns cs,
    w ≠ [] ∧ ∀ c ∈ w, ¬ c.isWhitespace :=
  fun cs => splitRunsAux_tokens cs.length cs

theorem trimChars_eq_self {cs : List Char}
    (h1 : ∀ c, cs.head? = some c → ¬ c.isWhitespace)
    (h2 : ∀ c, cs.reverse.head? = some c → ¬ c.isWhitespace) :
    trimChars cs = cs := by
  unfold trimChars dropWs
  have e1 : cs.dropWhile Char.isWhitespace = cs := by
    cases cs with
    | nil => rfl
    | cons a t =>
      have := h1 a rfl
      simp [List.dropWhile, this]
  rw [e1]
  have e2 : cs.reverse.dropWhile Char.isWhitespace = cs.reverse := by
    cases hr : cs.reverse with
    | nil => rfl
    | cons a t =>
      have := h2 a (by rw [hr]; rfl)
      simp [List.dropWhile, this]
  rw [e2, List.reverse_reverse]

theorem joinChars_cons_head (w : List Char) (ws : List (List Char)) :
    ∃ r, joinChars ' ' (w :: ws) = w ++ r := by
  cases ws with
  | nil => exact ⟨[], by simp [joinChars]⟩
  | cons v vs => exact ⟨' ' :: joinChars ' ' (v :: vs), rfl⟩

theorem joinChars_concat_reverse : ∀ (wss : List (List Char)) (w : List Char),
    ∃ r, (joinChars ' ' (wss ++ [w])).reverse = w.reverse ++ r := by
  intro wss
  induction wss with
  | nil => intro w; exact ⟨[], by simp [joinChars]⟩
  | cons v vs ih =>
    intro w
    rcases hvl : vs ++ [w] with _ | ⟨a, l⟩
    · exact absurd hvl (by simp)
    · have hstep : joinChars ' ' ((v :: vs) ++ [w]) = v ++ ' ' :: joinChars ' ' (a :: l) := by
        simp only [List.cons_append, hvl]; rfl
      rcases ih w with ⟨r, hr⟩
      refine ⟨r ++ ' ' :: v.reverse, ?_⟩
      rw [hstep]
      rw [List.reverse_append, List.reverse_cons]
      rw [← hvl, hr]
      simp

theorem head_append_mem {l r : List Char} {c : Char}
    (h : (l ++ r).head? = some c) (hne : l ≠ []) : c ∈ l := by
  cases l with
  | nil => exact absurd rfl hne
  | cons a t =>
    simp only [List.cons_append, List.head?_cons, Option.some.injEq] at h
    subst h
    exact List.mem_cons_self _ _

/-- If every word is non-empty and whitespace-free, `words.join(' ').trim()`
is just `words.join(' ')`. -/
theorem reconstructText_eq_wordJoin (ws : List String)
    (h : ∀ w ∈ ws, w.toList ≠ [] ∧ ∀ c ∈ w.toList, ¬ c.isWhitespace) :
    reconstructText ws = wordJoin ws := by
  unfold reconstructText wordJoin strTrim
  congr 1
  show trimChars (joinChars ' ' (ws.map String.toList)) = joinChars ' ' (ws.map String.toList)
  apply trimChars_eq_self
  · intro c hc
    cases hws : ws with
    | nil => subst hws; simp [joinChars] at hc
    | cons w rest =>
      subst hws
      rcases joinChars_cons_head w.toList (rest.map String.toList) with ⟨r, hr⟩
      simp only [List.map_cons] at hc
      rw [hr] at hc
      have hw := h w (List.mem_cons_self _ _)
      exact hw.2 c (head_append_mem hc hw.1)
  · intro c hc
    rcases List.eq_nil_or_concat (ws.map String.toList) with hnil | ⟨L, b, hLb⟩
    all_goals try rw [List.concat_eq_append] at hLb
    · rw [hnil] at hc; simp [joinChars] at hc
    · rcases joinChars_concat_reverse L b with ⟨r, hr⟩
      rw [hLb, hr] at hc
      have hbmem : b ∈ ws.map String.toList := by rw [hLb]; simp
      rcases List.mem_map.1 hbmem with ⟨w, hwmem, hwb⟩
      have hw := h w hwmem
      have hrevne : b.reverse ≠ [] := by
        intro hx
        apply hw.1
        rw [hwb]
        exact List.reverse_eq_nil_iff.1 hx
      have hcb : c ∈ b := by
        have h2 := head_append_mem hc hrevne
        simpa using h2
      rw [← hwb] at hcb
      exact hw.2 c hcb

/-- Tokens of `textToWords` are non-empty and whitespace-free. -/
theorem textToWords_tokens (t : String) :
    ∀ w ∈ textToWords t, w.toList ≠ [] ∧ ∀ c ∈ w.toList, ¬ c.isWhitespace := by
  intro w hw
  unfold textToWords at hw
  rcases List.mem_map.1 hw with ⟨cs, hcs, rfl⟩
  have := splitRuns_tokens t.toList cs hcs
  simpa using this

/-! ### The diff walk of the reconciler rebuilds exactly the patched words -/

/-- One `reconcileStep` pushes the operation's word for KEEP and ADD and
leaves the word projection unchanged for REMOVE. -/
theorem reconcileStep_words (segment : WhisperxSegment) (originalWords : List WhisperxWord)
    (st : List WhisperxWord × Option WhisperxWord) (op : DiffOperation)
    (hwf : op.op ≠ .add → op.originalIndex.isSome) :
    (reconcileStep segment originalWords st op).1.map (·.word) =
      (if op.op = .remove then st.1.map (·.word)
       else op.word :: st.1.map (·.word)) := by
  obtain ⟨opk, oi, pi, w⟩ := op
  obtain ⟨rev, pend⟩ := st
  cases opk with
  | keep =>
    cases oi with
    | none => have := hwf (by simp); simp at this
    | some i => cases pend <;> simp [reconcileStep]
  | remove =>
    cases oi with
    | none => have := hwf (by simp); simp at this
    | some i =>
      cases rev with
      | nil => cases pend <;> simp [reconcileStep]
      | cons prev rest => simp [reconcileStep]
  | add =>
    cases rev with
    | nil => cases pend <;> simp [reconcileStep]
    | cons prev rest =>
      obtain ⟨pw, ps, pe, psp, psc⟩ := prev
      cases ps <;> cases pe <;> cases psp <;> simp [reconcileStep]

/-- Folding `reconcileStep` over an operation stream: the reversed word
projection of the accumulator is the KEEP∪ADD projection of the stream. -/
theorem reconcileWalk_words (segment : WhisperxSegment) (originalWords : List WhisperxWord) :
    ∀ (ops : List DiffOperation), (∀ d ∈ ops, d.op ≠ .add → d.originalIndex.isSome) →
    ∀ st : List WhisperxWord × Option WhisperxWord,
    (ops.foldl (reconcileStep segment originalWords) st).1.map (·.word) =
      (keepAddWords ops).reverse ++ st.1.map (·.word) := by
  intro ops
  induction ops with
  | nil => intro _ st; simp [keepAddWords]
  | cons op rest ih =>
    intro hwf st
    rw [List.foldl_cons,
      ih (fun d hd hh => hwf d (List.mem_cons_of_mem _ hd) hh)
        (reconcileStep segment originalWords st op),
      reconcileStep_words segment originalWords st op (hwf op (List.mem_cons_self _ _))]
    cases hop : op.op with
    | keep =>
      simp only [keepAddWords, List.filterMap_cons, hop]
      simp [List.append_assoc]
    | remove =>
      simp only [keepAddWords, List.filterMap_cons, hop]
      simp
    | add =>
      simp only [keepAddWords, List.filterMap_cons, hop]
      simp [List.append_assoc]

/-- The general (different word count) path of `reconcileSegment`: the new
word list's texts are exactly the patched words, and the segment is updated
only in `words` and `text`. -/
theorem reconcileSegment_general (segment : WhisperxSegment) (ws : List WhisperxWord)
    (patched : List String) (hws : segment.words = some ws)
    (hne : ws.length ≠ 0) (hlen : ws.length ≠ patched.length) :
    ∃ r, reconcileSegment segment patched =
        { segment with words := some r, text := reconstructText patched } ∧
      r.map (·.word) = patched := by
  obtain ⟨hkr, hka, hwf⟩ := computeDiff_consumes (ws.map (·.word)) patched
  refine ⟨((computeDiff (ws.map (·.word)) patched).foldl
      (reconcileStep segment ws) ([], none)).1.reverse, ?_, ?_⟩
  · unfold reconcileSegment
    rw [hws]
    simp only [if_neg hne, if_neg hlen]
  · rw [List.map_reverse, reconcileWalk_words segment ws _ hwf ([], none)]
    simpa using hka

theorem zipWith_setWord_words (ws : List WhisperxWord) (p : List String)
    (h : ws.length = p.length) :
    (List.zipWith (fun w t => { w with word := t }) ws p).map (·.word) = p := by
  induction ws generalizing p with
  | nil => cases p with
    | nil => simp
    | cons a l => simp at h
  | cons w rest ih =>
    cases p with
    | nil => simp at h
    | cons a l =>
      simp only [List.zipWith_cons_cons, List.map_cons]
      rw [ih l (by simpa using h)]

theorem zipWith_setWord_self (ws : List WhisperxWord) :
    List.zipWith (fun w t => { w with word := t }) ws (ws.map (·.word)) = ws := by
  induction ws with
  | nil => rfl
  | cons w rest ih => simp only [List.map_cons, List.zipWith_cons_cons, ih]

theorem zipWith_setWord_idem (ws : List WhisperxWord) (p : List String)
    (h : ws.length = p.length) :
    List.zipWith (fun w t => { w with word := t })
      (List.zipWith (fun w t => { w with word := t }) ws p) p =
    List.zipWith (fun w t => { w with word := t }) ws p := by
  induction ws generalizing p with
  | nil => cases p <;> rfl
  | cons w rest ih =>
    cases p with
    | nil => rfl
    | cons a l =>
      simp only [List.zipWith_cons_cons]
      rw [ih l (by simpa using h)]

/-- The per-segment text invariant of the spec: whenever the words array is
present and non-empty, the `text` field is the space-join of the word texts. -/
def segTextInv (s : WhisperxSegment) : Prop :=
  s.words.getD [] ≠ [] → s.text = wordJoin ((s.words.getD []).map (·.word))

instance (s : WhisperxSegment) : Decidable (segTextInv s) := by
  unfold segTextInv; infer_instance

/-- Reconciliation establishes the text invariant whenever the patched words
are non-empty whitespace-free tokens (as produced by `textToWords`). -/
theorem reconcileSegment_establishes_inv (segment : WhisperxSegment) (patched : List String)
    (hp : ∀ w ∈ patched, w.toList ≠ [] ∧ ∀ c ∈ w.toList, ¬ c.isWhitespace) :
    segTextInv (reconcileSegment segment patched) := by
  have hrt : reconstructText patched = wordJoin patched := reconstructText_eq_wordJoin patched hp
  rcases hws : segment.words with _ | ws
  · unfold segTextInv reconcileSegment
    rw [hws]
    simp [hws]
  · by_cases h0 : ws.length = 0
    · have hwe : ws = [] := List.length_eq_zero.1 h0
      unfold segTextInv reconcileSegment
      rw [hws]
      simp [h0, hws, hwe]
    · by_cases hl : ws.length = patched.length
      · unfold segTextInv reconcileSegment
        rw [hws]
        simp only [if_neg h0, if_pos hl]
        intro _
        show reconstructText patched = wordJoin _
        rw [hrt]
        simp only [Option.getD_some]
        rw [zipWith_setWord_words ws patched hl]
      · obtain ⟨r, hr, hrm⟩ := reconcileSegment_general segment ws patched hws h0 hl
        unfold segTextInv
        rw [hr]
        intro _
        show reconstructText patched = wordJoin _
        rw [hrt]
        simp only [Option.getD_some]
        rw [hrm]

/-- Idempotence of the reconciler on a fixed non-empty patched word list. -/
theorem reconcileSegment_idem (segment : WhisperxSegment) (patched : List String)
    (hp : patched ≠ []) :
    reconcileSegment (reconcileSegment segment patched) patched =
      reconcileSegment segment patched := by
  have hplen : patched.length ≠ 0 := by
    intro h; exact hp (List.length_eq_zero.1 h)
  rcases hws : segment.words with _ | ws
  · unfold reconcileSegment
    rw [hws]
  · by_cases h0 : ws.length = 0
    · unfold reconcileSegment
      rw [hws]
      simp [h0, hws]
    · by_cases hl : ws.length = patched.length
      · unfold reconcileSegment
        rw [hws]
        simp only [if_neg h0, if_pos hl]
        have hzl : (List.zipWith (fun w t => { w with word := t }) ws patched).length =
            patched.length := by
          rw [List.length_zipWith]; omega
        simp only [if_neg (by omega : ¬ (List.zipWith
          (fun w t => { w with word := t }) ws patched).length = 0),
          if_pos hzl, zipWith_setWord_idem ws patched hl]
      · obtain ⟨r, hr, hrm⟩ := reconcileSegment_general segment ws patched hws h0 hl
        rw [hr]
        have hrlen : r.length = patched.length := by
          rw [← hrm, List.length_map]
        unfold reconcileSegment
        simp only [if_neg (by omega : ¬ r.length = 0), if_pos hrlen]
        have : List.zipWith (fun w t => { w with word := t }) r patched = r := by
          conv_lhs => rw [← hrm]
          exact zipWith_setWord_self r
        rw [this]

/-- The empty-patched-words path: a segment with non-empty words is wiped
(words cleared, text emptied), not left unchanged. -/
theorem reconcileSegment_empty (segment : WhisperxSegment) (ws : List WhisperxWord)
    (hws : segment.words = some ws) (hne : ws ≠ []) :
    reconcileSegment segment [] = { segment with words := some [], text := "" } := by
  have h0 : ws.length ≠ 0 := by
    intro h; exact hne (List.length_eq_zero.1 h)
  obtain ⟨r, hr, hrm⟩ := reconcileSegment_general segment ws [] hws h0 (by simpa using h0)
  have hrnil : r = [] := List.map_eq_nil.1 hrm
  rw [hr, hrnil]
  rfl

/-! ## Replacement engine (src/lambdas/pipeline/steps/replacement.ts) -/

/-- A replacement rule (packages/config: discriminated union on `type`). -/
inductive ReplacementRule where
  | literal (search replacement : String)
  | regex (search replacement : String)
deriving Repr, DecidableEq

/-- `ruleToKey`: `"{search}->{replacement}"` for literal rules and
`"r\x27{search}\x27->{replacement}"` for regex rules. -/
def ruleToKey : ReplacementRule → String
  | .regex s r => "r\x27" ++ s ++ "\x27->" ++ r
  | .literal s r => s ++ "->" ++ r

/-- Pre-processed replacement rule (replacement.ts `CompiledRule`): the
compiled `RegExp` of a regex rule is represented by its pattern string plus
the `isRegex` flag; the actual JS regex engine is a platform capability and is
passed to `applyCompiledRules` as a `RegexEngine`. -/
structure CompiledRule where
  pattern : String
  replacement : String
  isRegex : Bool
  key : String
deriving Repr, DecidableEq

/-- The JS `RegExp` global-match capability: `countMatches pattern text` is
`text.match(regex).length` (0 for no match) and `globalReplace pattern
replacement text` is `text.replace(regex, replacement)` for the compiled
global regex.  No claim exercises a regex rule, so the engine is left
abstract. -/
structure RegexEngine where
  countMatches : String → String → Nat
  globalReplace : String → String → String → String

/-- `compileReplacementRules`. -/
def compileReplacementRules (rules : List ReplacementRule) : List CompiledRule :=
  rules.map fun r => match r with
    | .regex s rep => ⟨s, rep, true, ruleToKey (.regex s rep)⟩
    | .literal s rep => ⟨s, rep, false, ruleToKey (.literal s rep)⟩

/-- `counts[key] = (counts[key] ?? 0) + n` on a JS object, which preserves
insertion order of keys. -/
def bumpCount (counts : List (String × Nat)) (key : String) (n : Nat) :
    List (String × Nat) :=
  match counts with
  | [] => [(key, n)]
  | (k, v) :: rest =>
    if k = key then (k, v + n) :: rest else (k, v) :: bumpCount rest key n

/-- Result of applying compiled rules to a text (replacement.ts
`ApplyResult`). -/
structure ApplyResult where
  text : String
  counts : List (String × Nat)
deriving Repr, DecidableEq

/-- `applyCompiledRules`: fold the rules over the text, counting matches
before substituting. -/
def applyCompiledRules (eng : RegexEngine) (text : String)
    (compiledRules : List CompiledRule) : ApplyResult :=
  compiledRules.foldl
    (fun acc rule =>
      if rule.isRegex then
        let m := eng.countMatches rule.pattern acc.text
        if m > 0 then
          ⟨eng.globalReplace rule.pattern rule.replacement acc.text,
           bumpCount acc.counts rule.key m⟩
        else acc
      else
        let count := strCountOcc acc.text rule.pattern
        if count > 0 then
          ⟨strReplaceAll acc.text rule.pattern rule.replacement,
           bumpCount acc.counts rule.key count⟩
        else acc)
    ⟨text, []⟩

/-- Stats of the replacement step (replacement.ts `ReplacementStats`). -/
structure ReplacementStats where
  segmentsModified : Nat
  wordChanges : Nat
  replacementCounts : List (String × Nat)
deriving Repr, DecidableEq

/-- Per-segment body of the `applyReplacements` loop, threading the rebuilt
segment list and the stats. -/
def applyReplacementsStep (eng : RegexEngine) (compiledRules : List CompiledRule)
    (acc : List WhisperxSegment × ReplacementStats) (segment : WhisperxSegment) :
    List WhisperxSegment × ReplacementStats :=
  let originalText := getSegmentWordsText segment
  let originalWordCount := (segment.words.getD []).length
  let ar := applyCompiledRules eng originalText compiledRules
  let mergedCounts :=
    ar.counts.foldl (fun c kv => bumpCount c kv.1 kv.2) acc.2.replacementCounts
  let stats1 := { acc.2 with replacementCounts := mergedCounts }
  if ar.text = originalText then (acc.1 ++ [segment], stats1)
  else
    let patchedWords := textToWords ar.text
    let segment1 := reconcileSegment segment patchedWords
    let newWordCount := (segment1.words.getD []).length
    let d := Int.natAbs ((newWordCount : ℤ) - (originalWordCount : ℤ))
    (acc.1 ++ [segment1],
     { stats1 with
        segmentsModified := stats1.segmentsModified + 1,
        wordChanges := stats1.wordChanges + (if d = 0 then 1 else d) })

/-- `applyReplacements` (replacement.ts): apply all rules to every segment and
reconcile changed segments; the mutated transcript is returned together with
the stats. -/
def applyReplacements (eng : RegexEngine) (result : WhisperxResult)
    (rules : List ReplacementRule) : WhisperxResult × ReplacementStats :=
  if rules.length = 0 then (result, ⟨0, 0, []⟩)
  else
    let compiledRules := compileReplacementRules rules
    let r := result.segments.foldl (applyReplacementsStep eng compiledRules) ([], ⟨0, 0, []⟩)
    (⟨r.1⟩, r.2)

/-! ## Segment normalization (src/lambdas/pipeline/steps/segments-normalization.ts) -/

/-- Normalization configuration (packages/config `NormalizationConfigSchema`);
numeric fields are `z.number()`, modelled as `ℚ`. -/
structure NormalizationConfig where
  normalize : Bool := true
  maxCharsPerSegment : ℚ := 48
  maxWordsPerSegment : ℚ := 10
  splitSegmentAtSpeakerChange : Bool := true
  punctuationSplitThreshold : ℚ := 7/10
  punctuationChars : List String := [".", ",", "?", "!", ";", ":"]
deriving Repr, DecidableEq

/-- `endsWithPunctuation`. -/
def endsWithPunctuation (word : String) (punctuationChars : List String) : Bool :=
  punctuationChars.any fun c => strEndsWith word c

/-- `createSegmentFromWords`: new segment from a subset of words (`words` is
copied; `start`/`end` fall back to 0 for missing word timings). -/
def createSegmentFromWords (words : List WhisperxWord) (speaker : Option String) :
    WhisperxSegment :=
  { start := (words.head?.bind (·.start)).getD 0,
    «end» := ((words.getLast?).bind (·.«end»)).getD 0,
    text := strTrim (wordJoin (words.map (·.word))),
    speaker := speaker,
    words := some words }

/-- `calculateChars`: sum of word lengths plus the separating spaces.
(JS string `.length` counts UTF-16 code units; Lean counts characters — these
agree on all inputs the claims exercise.) -/
def calculateChars (words : List WhisperxWord) : Nat :=
  if words.length = 0 then 0
  else (words.map (fun w => w.word.length)).sum + (words.length - 1)

/-- State of the `splitSegment` loop: emitted segments, current accumulator,
current speaker. -/
structure SplitState where
  results : List WhisperxSegment
  currentWords : List WhisperxWord
  currentSpeaker : Option String
deriving Repr, DecidableEq

/-- Speaker-change flush of the `splitSegment` loop: force a split before the
word when the speaker changes.  JS truthiness of a speaker label is modelled
as `Option.isSome` (labels are non-empty strings). -/
def speakerFlush (config : NormalizationConfig) (st : SplitState)
    (word : WhisperxWord) : SplitState :=
  if config.splitSegmentAtSpeakerChange ∧ word.speaker.isSome ∧
      st.currentSpeaker.isSome ∧ word.speaker ≠ st.currentSpeaker ∧
      st.currentWords ≠ [] then
    { results := st.results ++ [createSegmentFromWords st.currentWords st.currentSpeaker],
      currentWords := [], currentSpeaker := word.speaker }
  else st

/-- Hard-limit flush: would adding this word exceed the word or char limits? -/
def hardFlush (config : NormalizationConfig) (st : SplitState)
    (word : WhisperxWord) : SplitState :=
  let projectedWords := st.currentWords.length + 1
  let projectedChars := calculateChars st.currentWords +
    (if st.currentWords.length > 0 then 1 else 0) + word.word.length
  if ((projectedWords : ℚ) > config.maxWordsPerSegment ∨
      (projectedChars : ℚ) > config.maxCharsPerSegment) ∧ st.currentWords ≠ [] then
    { results := st.results ++ [createSegmentFromWords st.currentWords st.currentSpeaker],
      currentWords := [], currentSpeaker := st.currentSpeaker }
  else st

/-- Append the word to the accumulator and adopt its speaker if present. -/
def appendWord (st : SplitState) (word : WhisperxWord) : SplitState :=
  { st with
    currentWords := st.currentWords ++ [word],
    currentSpeaker := match word.speaker with | some s => some s | none => st.currentSpeaker }

/-- Soft punctuation flush after appending: split when close enough to a
limit and the word ends with a punctuation character. -/
def softFlush (config : NormalizationConfig) (isLastWord : Bool)
    (st : SplitState) (word : WhisperxWord) : SplitState :=
  if ¬ isLastWord ∧ st.currentWords ≠ [] ∧
      max ((calculateChars st.currentWords : ℚ) / config.maxCharsPerSegment)
        ((st.currentWords.length : ℚ) / config.maxWordsPerSegment) ≥
        config.punctuationSplitThreshold ∧
      endsWithPunctuation word.word config.punctuationChars then
    { results := st.results ++ [createSegmentFromWords st.currentWords st.currentSpeaker],
      currentWords := [], currentSpeaker := st.currentSpeaker }
  else st

/-- One iteration of the `splitSegment` loop: speaker-change flush, hard-limit
flush, append, soft punctuation flush, in the order of the source. -/
def splitStep (config : NormalizationConfig) (isLastWord : Bool)
    (st : SplitState) (word : WhisperxWord) : SplitState :=
  softFlush config isLastWord
    (appendWord (hardFlush config (speakerFlush config st word) word) word) word

/-- Final flush of the `splitSegment` loop: emit any remaining accumulator.
(`splitSegment` below: JS division by a zero limit yields `Infinity` where
`ℚ` yields 0; no claim depends on a zero limit.) -/
def finalFlush (st : SplitState) : List WhisperxSegment :=
  if st.currentWords ≠ [] then
    st.results ++ [createSegmentFromWords st.currentWords st.currentSpeaker]
  else st.results

def splitSegment (segment : WhisperxSegment) (config : NormalizationConfig) :
    List WhisperxSegment :=
  finalFlush ((segment.words.getD []).enum.foldl
    (fun st (wi : Nat × WhisperxWord) =>
      splitStep config (wi.1 = (segment.words.getD []).length - 1) st wi.2)
    ⟨[], [], segment.speaker⟩)

/-- Distribution statistics (segments-normalization.ts `DistributionStats`). -/
structure DistributionStats where
  min : ℚ
  max : ℚ
  avg : ℚ
  p95 : ℚ
deriving Repr, DecidableEq

/-- JS `Math.round` for the non-negative values used here. -/
def jsRound (x : ℚ) : ℤ := ⌊x + 1/2⌋

/-- `computeDistributionStats`. -/
def computeDistributionStats (values : List ℚ) : DistributionStats :=
  if values.length = 0 then ⟨0, 0, 0, 0⟩
  else
    let sorted := values.mergeSort (· ≤ ·)
    let sum := values.sum
    let p95Idx : ℤ := ⌈(95 : ℚ)/100 * values.length⌉ - 1
    ⟨sorted.getD 0 0, sorted.getD (sorted.length - 1) 0,
     (jsRound (sum / values.length * 100) : ℚ) / 100,
     sorted.getD (Int.toNat (max 0 p95Idx)) 0⟩

/-- Stats of the normalization step. -/
structure NormalizationStats where
  originalSegments : Nat
  normalizedSegments : Nat
  splits : Nat
  wordsPerSegment : DistributionStats
  charsPerSegment : DistributionStats
deriving Repr, DecidableEq

/-- `normalizeSegments`: split every segment that has a non-empty words array;
segments without words pass through unchanged.  Returns the mutated transcript
and the stats. -/
def normalizeSegments (transcript : WhisperxResult) (config : NormalizationConfig) :
    WhisperxResult × NormalizationStats :=
  let acc := transcript.segments.foldl
    (fun (acc : List WhisperxSegment × Nat) segment =>
      if segment.words.getD [] = [] then (acc.1 ++ [segment], acc.2)
      else
        let segmentSplits := splitSegment segment config
        (acc.1 ++ segmentSplits,
         acc.2 + (if segmentSplits.length > 1 then segmentSplits.length - 1 else 0)))
    ([], 0)
  let newSegments := acc.1
  (⟨newSegments⟩,
   { originalSegments := transcript.segments.length,
     normalizedSegments := newSegments.length,
     splits := acc.2,
     wordsPerSegment :=
       computeDistributionStats (newSegments.map fun s => ((s.words.getD []).length : ℚ)),
     charsPerSegment :=
       computeDistributionStats (newSegments.map fun s => (s.text.length : ℚ)) })

/-! ## Caption formatting helpers (utils/captions/formatting.ts, via
src/unnamed/part_017) -/

/-- Highlight style (packages/config `highlightWith`). -/
inductive HighlightWith | underline | bold | italic
deriving Repr, DecidableEq

/-- Speaker-name inclusion mode (packages/config `includeSpeakerNames`). -/
inductive IncludeSpeakerNames | never | always | whenChanges
deriving Repr, DecidableEq

/-- Captions configuration (packages/config `CaptionsConfigSchema`). -/
structure CaptionsConfig where
  generateVtt : Bool := true
  generateSrt : Bool := true
  generateSimplifiedJson : Bool := true
  highlightWords : Bool := false
  highlightWith : HighlightWith := .underline
  includeSpeakerNames : IncludeSpeakerNames := .whenChanges
deriving Repr, DecidableEq

/-- JS `%` (remainder); for the non-negative operands used by the timestamp
formatters this equals the floor-based remainder. -/
def jsMod (x y : ℚ) : ℚ := x - y * ⌊x / y⌋

/-- `formatVttTimestamp` (formatting.ts): `HH:MM:SS.mmm` with
`ms = Math.round((seconds % 1) * 1000)` and 2- and 3-wide zero padding. -/
def formatVttTimestamp (seconds : ℚ) : String :=
  let hours : ℤ := ⌊seconds / 3600⌋
  let minutes : ℤ := ⌊jsMod seconds 3600 / 60⌋
  let secs : ℤ := ⌊jsMod seconds 60⌋
  let ms : ℤ := jsRound (jsMod seconds 1 * 1000)
  padStart (toString hours) 2 '0' ++ ":" ++ padStart (toString minutes) 2 '0' ++
    ":" ++ padStart (toString secs) 2 '0' ++ "." ++ padStart (toString ms) 3 '0'

/-- `formatSrtTimestamp` (formatting.ts): like VTT but with a comma. -/
def formatSrtTimestamp (seconds : ℚ) : String :=
  let hours : ℤ := ⌊seconds / 3600⌋
  let minutes : ℤ := ⌊jsMod seconds 3600 / 60⌋
  let secs : ℤ := ⌊jsMod seconds 60⌋
  let ms : ℤ := jsRound (jsMod seconds 1 * 1000)
  padStart (toString hours) 2 '0' ++ ":" ++ padStart (toString minutes) 2 '0' ++
    ":" ++ padStart (toString secs) 2 '0' ++ "," ++ padStart (toString ms) 3 '0'

/-- `escapeHtml`: three sequential global replacements. -/
def escapeHtml (text : String) : String :=
  strReplaceAll (strReplaceAll (strReplaceAll text "&" "&amp;") "<" "&lt;") ">" "&gt;"

/-- `getHighlightTag`: opening/closing tag pair (default underline). -/
def getHighlightTag (highlightWith : HighlightWith) : String × String :=
  match highlightWith with
  | .bold => ("<b>", "</b>")
  | .italic => ("<i>", "</i>")
  | .underline => ("<u>", "</u>")

/-- `highlightText`. -/
def highlightText (text : String) (highlightWith : HighlightWith) : String :=
  (getHighlightTag highlightWith).1 ++ text ++ (getHighlightTag highlightWith).2

/-- `buildSpeakerPrefix` (JS truthiness of the speaker label is modelled as
`Option.isSome`; labels are non-empty strings). -/
def buildSpeakerPrefix (speaker previousSpeaker : Option String)
    (includeSpeakerNames : IncludeSpeakerNames) : String :=
  match includeSpeakerNames with
  | .never => ""
  | .always => match speaker with | some s => s ++ ": " | none => ""
  | .whenChanges =>
    match speaker with
    | some s => if some s ≠ previousSpeaker then s ++ ": " else ""
    | none => ""

/-! ## SRT generation (utils/captions/srt.ts) -/

/-- A caption cue. -/
structure CaptionCue where
  start : ℚ
  «end» : ℚ
  text : String
deriving Repr, DecidableEq

/-- `getSegmentSpeaker` (srt.ts): segment speaker, else first word's speaker,
else `SPEAKER_00`. -/
def getSegmentSpeaker (segment : WhisperxSegment) : String :=
  (segment.speaker.orElse fun _ => (segment.words.getD []).head?.bind (·.speaker)).getD
    "SPEAKER_00"

/-- `buildSegmentText`: full segment text from words, HTML-escaped. -/
def buildSegmentText (words : List WhisperxWord) : String :=
  wordJoin (words.map fun w => escapeHtml w.word)

/-- `buildHighlightedText`: segment text with the word at `highlightIndex`
wrapped in the highlight tag. -/
def buildHighlightedText (words : List WhisperxWord) (highlightIndex : Nat)
    (highlightWith : HighlightWith) : String :=
  wordJoin (words.enum.map fun iw =>
    let escaped := escapeHtml iw.2.word
    if iw.1 = highlightIndex then highlightText escaped highlightWith else escaped)

/-- `hasValidTiming`: both ends present, `start ≥ 0`, `end > start`. -/
def hasValidTiming (word : WhisperxWord) : Bool :=
  match word.start, word.«end» with
  | some s, some e => decide (s ≥ 0 ∧ e > s)
  | _, _ => false

/-- `hasValidSegmentTiming`: `end > 0` and `end > start`. -/
def hasValidSegmentTiming (segmentStart segmentEnd : ℚ) : Bool :=
  decide (segmentEnd > 0 ∧ segmentEnd > segmentStart)

/-- `distributeTimingIfMissing` (srt.ts): fill missing word timings by an even
split of the segment envelope.  The source mutates the word array in place;
the updated array is returned. -/
def distributeTimingIfMissing (words : List WhisperxWord)
    (segmentStart segmentEnd : ℚ) : List WhisperxWord :=
  let duration := segmentEnd - segmentStart
  let wordDuration := duration / (words.length : ℚ)
  words.enum.map fun iw =>
    { iw.2 with
      start := match iw.2.start with
        | some s => some s
        | none => some (segmentStart + (iw.1 : ℚ) * wordDuration),
      «end» := match iw.2.«end» with
        | some e => some e
        | none => some (segmentStart + ((iw.1 : ℚ) + 1) * wordDuration) }

/-- Loop body of `generateHighlightedCues`: skip words without valid timing;
for a timed word emit a filler cue over any gap since the previous cue end and
then the highlighted cue for the word. -/
def highlightedCueStep (spkPrefix : String) (words : List WhisperxWord)
    (config : CaptionsConfig) (st : List CaptionCue × ℚ)
    (iw : Nat × WhisperxWord) : List CaptionCue × ℚ :=
  if hasValidTiming iw.2 then
    let wordStart := iw.2.start.getD 0
    let wordEnd := iw.2.«end».getD 0
    (st.1 ++
      (if wordStart > st.2 then
        [⟨st.2, wordStart, spkPrefix ++ buildSegmentText words⟩]
      else []) ++
      [⟨wordStart, wordEnd,
        spkPrefix ++ buildHighlightedText words iw.1 config.highlightWith⟩],
     wordEnd)
  else st

/-- `generateHighlightedCues` (srt.ts): per-word highlighted cues with filler
cues over gaps.  Returns the cues together with the (possibly mutated) word
array. -/
def generateHighlightedCues (words : List WhisperxWord)
    (speaker previousSpeaker : Option String) (config : CaptionsConfig)
    (segmentStart segmentEnd : ℚ) : List CaptionCue × List WhisperxWord :=
  if words = [] then ([], words)
  else
    let words := if hasValidSegmentTiming segmentStart segmentEnd then
        distributeTimingIfMissing words segmentStart segmentEnd
      else words
    let spkPrefix := buildSpeakerPrefix speaker previousSpeaker config.includeSpeakerNames
    match words.find? hasValidTiming with
    | none => ([], words)
    | some firstValidWord =>
      let st := words.enum.foldl (highlightedCueStep spkPrefix words config)
        ([], firstValidWord.start.getD 0)
      (if hasValidSegmentTiming segmentStart segmentEnd ∧ segmentEnd > st.2 then
        st.1 ++ [⟨st.2, segmentEnd, spkPrefix ++ buildSegmentText words⟩]
      else st.1, words)

/-- `generateBasicCue` (srt.ts). -/
def generateBasicCue (segment : WhisperxSegment) (speaker previousSpeaker : Option String)
    (config : CaptionsConfig) : CaptionCue :=
  ⟨segment.start, segment.«end»,
   buildSpeakerPrefix speaker previousSpeaker config.includeSpeakerNames ++
     escapeHtml (strTrim segment.text)⟩

/-- Options record shared by the caption generators. -/
structure GeneratorOptions where
  transcript : WhisperxResult
  config : CaptionsConfig
deriving Repr, DecidableEq

/-- Per-segment body of the `generateSrt` loop.  The state carries the output
lines, the cue number, the previous speaker and the rebuilt segment list (the
source mutates `segment.words` in place through `generateHighlightedCues`). -/
def generateSrtStep (config : CaptionsConfig)
    (st : List String × Nat × Option String × List WhisperxSegment)
    (segment : WhisperxSegment) :
    List String × Nat × Option String × List WhisperxSegment :=
  let speaker := getSegmentSpeaker segment
  let cs :=
    if config.highlightWords ∧ segment.words.getD [] ≠ [] then
      let r := generateHighlightedCues (segment.words.getD []) (some speaker)
        st.2.2.1 config segment.start segment.«end»
      (r.1, { segment with words := some r.2 })
    else
      ([generateBasicCue segment (some speaker) st.2.2.1 config], segment)
  let r := cs.1.foldl
    (fun (acc : List String × Nat) cue =>
      (acc.1 ++ [toString acc.2,
        formatSrtTimestamp cue.start ++ " --> " ++ formatSrtTimestamp cue.«end»,
        cue.text, ""], acc.2 + 1))
    (st.1, st.2.1)
  (r.1, r.2, some speaker, st.2.2.2 ++ [cs.2])

/-- `generateSrt` (srt.ts): cue lines joined by newlines.  The transcript
value after generation is returned as the second component (the source
mutates it in place when highlighting distributes timings). -/
def generateSrt (options : GeneratorOptions) : String × WhisperxResult :=
  let st := options.transcript.segments.foldl (generateSrtStep options.config)
    ([], 1, none, [])
  (lineJoin st.1, ⟨st.2.2.2⟩)

/-! ## Normalization lemmas -/

/-- Flattened words of the split state: emitted segments' words followed by
the accumulator. -/
def splitStateWords (st : SplitState) : List WhisperxWord :=
  (st.results.flatMap fun sg => sg.words.getD []) ++ st.currentWords

/-- Flushing the accumulator into the results (the common body of the three
flush branches) does not change the flattened word stream. -/
theorem ite_flush_flatten (C : Prop) [Decidable C] (st : SplitState) (spk : Option String) :
    splitStateWords (if C then
      { results := st.results ++ [createSegmentFromWords st.currentWords st.currentSpeaker],
        currentWords := [], currentSpeaker := spk }
    else st) = splitStateWords st := by
  split_ifs with h
  · unfold splitStateWords createSegmentFromWords
    simp [List.flatMap_append]
  · rfl

theorem speakerFlush_flatten (config : NormalizationConfig) (st : SplitState)
    (w : WhisperxWord) : splitStateWords (speakerFlush config st w) = splitStateWords st :=
  ite_flush_flatten _ st _

theorem hardFlush_flatten (config : NormalizationConfig) (st : SplitState)
    (w : WhisperxWord) : splitStateWords (hardFlush config st w) = splitStateWords st :=
  ite_flush_flatten _ st _

theorem softFlush_flatten (config : NormalizationConfig) (isLast : Bool) (st : SplitState)
    (w : WhisperxWord) : splitStateWords (softFlush config isLast st w) = splitStateWords st :=
  ite_flush_flatten _ st _

theorem appendWord_flatten (st : SplitState) (w : WhisperxWord) :
    splitStateWords (appendWord st w) = splitStateWords st ++ [w] := by
  unfold appendWord splitStateWords
  simp [List.append_assoc]

theorem splitStep_flatten (config : NormalizationConfig) (isLast : Bool)
    (st : SplitState) (w : WhisperxWord) :
    splitStateWords (splitStep config isLast st w) = splitStateWords st ++ [w] := by
  unfold splitStep
  rw [softFlush_flatten, appendWord_flatten, hardFlush_flatten, speakerFlush_flatten]

/-- Folding `splitStep` over indexed words appends their word components. -/
theorem splitFold_flatten (config : NormalizationConfig) (n : Nat) :
    ∀ (l : List (Nat × WhisperxWord)) (st : SplitState),
    splitStateWords (l.foldl
      (fun st (wi : Nat × WhisperxWord) => splitStep config (wi.1 = n) st wi.2) st) =
      splitStateWords st ++ l.map (·.2) := by
  intro l
  induction l with
  | nil => intro st; simp
  | cons wi rest ih =>
    intro st
    rw [List.foldl_cons, ih, splitStep_flatten]
    simp

/-- `splitSegment` preserves the segment's words: the concatenation of the
emitted segments' words arrays is exactly the original words array. -/
theorem finalFlush_flatten (st : SplitState) :
    ((finalFlush st).flatMap fun sg => sg.words.getD []) = splitStateWords st := by
  unfold finalFlush splitStateWords
  split_ifs with h
  · simp [List.flatMap_append, createSegmentFromWords]
  · push_neg at h
    simp [h]

theorem splitSegment_flatten (segment : WhisperxSegment) (config : NormalizationConfig) :
    ((splitSegment segment config).flatMap fun sg => sg.words.getD []) =
      segment.words.getD [] := by
  unfold splitSegment
  rw [finalFlush_flatten]
  have h := splitFold_flatten config ((segment.words.getD []).length - 1)
    (segment.words.getD []).enum ⟨[], [], segment.speaker⟩
  simp only [splitStateWords, List.flatMap_nil, List.nil_append, List.enum_map_snd] at h
  exact h

/-- The segment list after `normalizeSegments` is the in-order flat map of the
per-segment handler (pass through word-less segments, split the rest). -/
theorem normalizeSegments_segments (transcript : WhisperxResult)
    (config : NormalizationConfig) :
    (normalizeSegments transcript config).1.segments =
      transcript.segments.flatMap fun s =>
        if s.words.getD [] = [] then [s] else splitSegment s config := by
  unfold normalizeSegments
  suffices h : ∀ (l : List WhisperxSegment) (acc : List WhisperxSegment × Nat),
      (l.foldl (fun (acc : List WhisperxSegment × Nat) segment =>
        if segment.words.getD [] = [] then (acc.1 ++ [segment], acc.2)
        else
          let segmentSplits := splitSegment segment config
          (acc.1 ++ segmentSplits,
           acc.2 + (if segmentSplits.length > 1 then segmentSplits.length - 1 else 0)))
        acc).1 =
      acc.1 ++ l.flatMap (fun s =>
        if s.words.getD [] = [] then [s] else splitSegment s config) by
    simpa using h transcript.segments ([], 0)
  intro l
  induction l with
  | nil => intro acc; simp
  | cons s rest ih =>
    intro acc
    rw [List.foldl_cons]
    by_cases hs : s.words.getD [] = []
    · simp only [if_pos hs, ih]
      simp [hs]
    · simp only [if_neg hs, ih]
      simp [hs]

/-- Well-formed word text per the data model: non-empty, no whitespace. -/
def wordWF (w : WhisperxWord) : Prop :=
  w.word.toList ≠ [] ∧ ∀ c ∈ w.word.toList, ¬ c.isWhitespace

instance (w : WhisperxWord) : Decidable ( wordWF w) := by
  unfold wordWF; infer_instance

/-- A segment built by `createSegmentFromWords` satisfies the text invariant
when its word texts are well formed (the `.trim()` stabilises). -/
theorem createSegmentFromWords_inv (ws : List WhisperxWord) (spk : Option String)
    (h : ∀ w ∈ ws, wordWF w) : segTextInv (createSegmentFromWords ws spk) := by
  intro _
  have h2 : ∀ t ∈ ws.map (fun w => w.word),
      t.toList ≠ [] ∧ ∀ c ∈ t.toList, ¬ c.isWhitespace := by
    intro t ht
    rcases List.mem_map.1 ht with ⟨w, hw, rfl⟩
    exact h w hw
  have h3 := reconstructText_eq_wordJoin (ws.map (fun w => w.word)) h2
  unfold reconstructText at h3
  simpa [createSegmentFromWords] using h3

/-- Generic flush branch: emitted segments keep the text invariant and the
accumulator only shrinks. -/
theorem ite_flush_inv (C : Prop) [Decidable C] (st : SplitState) (spk : Option String)
    (hres : ∀ sg ∈ st.results, segTextInv sg)
    (hcur : ∀ x ∈ st.currentWords, wordWF x) :
    (∀ sg ∈ (if C then
        { results := st.results ++ [createSegmentFromWords st.currentWords st.currentSpeaker],
          currentWords := [], currentSpeaker := spk }
      else st : SplitState).results, segTextInv sg) ∧
    (∀ x ∈ (if C then
        { results := st.results ++ [createSegmentFromWords st.currentWords st.currentSpeaker],
          currentWords := [], currentSpeaker := spk }
      else st : SplitState).currentWords, wordWF x) := by
  split_ifs with h
  · refine ⟨?_, by intro x hx; simp at hx⟩
    intro sg hsg
    rcases List.mem_append.1 hsg with hsg | hsg
    · exact hres sg hsg
    · simp only [List.mem_singleton] at hsg
      subst hsg
      exact createSegmentFromWords_inv _ _ hcur
  · exact ⟨hres, hcur⟩

theorem speakerFlush_inv (config : NormalizationConfig) (st : SplitState) (w : WhisperxWord)
    (hres : ∀ sg ∈ st.results, segTextInv sg)
    (hcur : ∀ x ∈ st.currentWords, wordWF x) :
    (∀ sg ∈ (speakerFlush config st w).results, segTextInv sg) ∧
    (∀ x ∈ (speakerFlush config st w).currentWords, wordWF x) :=
  ite_flush_inv _ st _ hres hcur

theorem hardFlush_inv (config : NormalizationConfig) (st : SplitState) (w : WhisperxWord)
    (hres : ∀ sg ∈ st.results, segTextInv sg)
    (hcur : ∀ x ∈ st.currentWords, wordWF x) :
    (∀ sg ∈ (hardFlush config st w).results, segTextInv sg) ∧
    (∀ x ∈ (hardFlush config st w).currentWords, wordWF x) :=
  ite_flush_inv _ st _ hres hcur

theorem softFlush_inv (config : NormalizationConfig) (isLast : Bool)
    (st : SplitState) (w : WhisperxWord)
    (hres : ∀ sg ∈ st.results, segTextInv sg)
    (hcur : ∀ x ∈ st.currentWords, wordWF x) :
    (∀ sg ∈ (softFlush config isLast st w).results, segTextInv sg) ∧
    (∀ x ∈ (softFlush config isLast st w).currentWords, wordWF x) :=
  ite_flush_inv _ st _ hres hcur

theorem splitStep_inv (config : NormalizationConfig) (isLast : Bool)
    (st : SplitState) (w : WhisperxWord)
    (hres : ∀ sg ∈ st.results, segTextInv sg)
    (hcur : ∀ x ∈ st.currentWords, wordWF x) (hw : wordWF w) :
    (∀ sg ∈ (splitStep config isLast st w).results, segTextInv sg) ∧
    (∀ x ∈ (splitStep config isLast st w).currentWords, wordWF x) := by
  unfold splitStep
  obtain ⟨h1, h2⟩ := speakerFlush_inv config st w hres hcur
  obtain ⟨h3, h4⟩ := hardFlush_inv config (speakerFlush config st w) w h1 h2
  refine softFlush_inv config isLast
    (appendWord (hardFlush config (speakerFlush config st w) w) w) w h3 ?_
  intro x hx
  have hx2 : x ∈ (hardFlush config (speakerFlush config st w) w).currentWords ++ [w] := hx
  rcases List.mem_append.1 hx2 with hx2 | hx2
  · exact h4 x hx2
  · simp only [List.mem_singleton] at hx2; subst hx2; exact hw

/-- Every segment emitted by `splitSegment` satisfies the text invariant when
the input segment's word texts are well formed. -/
theorem splitSegment_inv (segment : WhisperxSegment) (config : NormalizationConfig)
    (h : ∀ w ∈ segment.words.getD [], wordWF w) :
    ∀ sg ∈ splitSegment segment config, segTextInv sg := by
  unfold splitSegment
  have key : ∀ (l : List (Nat × WhisperxWord)), (∀ wi ∈ l, wordWF wi.2) →
      ∀ st : SplitState, (∀ sg ∈ st.results, segTextInv sg) →
      (∀ x ∈ st.currentWords, wordWF x) →
      (∀ sg ∈ (l.foldl (fun st (wi : Nat × WhisperxWord) =>
          splitStep config (wi.1 = (segment.words.getD []).length - 1) st wi.2) st).results,
        segTextInv sg) ∧
      (∀ x ∈ (l.foldl (fun st (wi : Nat × WhisperxWord) =>
          splitStep config (wi.1 = (segment.words.getD []).length - 1) st wi.2) st).currentWords,
        wordWF x) := by
    intro l
    induction l with
    | nil => intro _ st hres hcur; exact ⟨hres, hcur⟩
    | cons wi rest ih =>
      intro hl st hres hcur
      rw [List.foldl_cons]
      obtain ⟨h1, h2⟩ := splitStep_inv config _ st wi.2 hres hcur (hl wi (List.mem_cons_self _ _))
      exact ih (fun x hx => hl x (List.mem_cons_of_mem _ hx)) _ h1 h2
  have henum : ∀ wi ∈ (segment.words.getD []).enum, wordWF wi.2 := by
    intro wi hwi
    obtain ⟨wi1, wi2⟩ := wi
    obtain ⟨hlt, heq⟩ := List.mem_enum hwi
    show wordWF wi2
    rw [heq]
    exact h _ (List.getElem_mem hlt)
  obtain ⟨hres, hcur⟩ := key (segment.words.getD []).enum henum
    ⟨[], [], segment.speaker⟩ (by simp) (by simp)
  unfold finalFlush
  split_ifs with hne
  · intro sg hsg
    rcases List.mem_append.1 hsg with hsg | hsg
    · exact hres sg hsg
    · simp only [List.mem_singleton] at hsg
      subst hsg
      exact createSegmentFromWords_inv _ _ hcur
  · exact hres

/-- After `normalizeSegments`, every segment with a non-empty words array has
text equal to the space-join of its word texts (word-less segments pass
through and satisfy the invariant vacuously). -/
theorem normalizeSegments_inv (transcript : WhisperxResult) (config : NormalizationConfig)
    (h : ∀ sg ∈ transcript.segments, ∀ w ∈ sg.words.getD [], wordWF w) :
    ∀ sg ∈ (normalizeSegments transcript config).1.segments, segTextInv sg := by
  rw [normalizeSegments_segments]
  intro sg hsg
  rcases List.mem_flatMap.1 hsg with ⟨s, hs, hmem⟩
  by_cases hw : s.words.getD [] = []
  · rw [if_pos hw] at hmem
    simp only [List.mem_singleton] at hmem
    subst hmem
    intro hcon
    exact absurd hw hcon
  · rw [if_neg hw] at hmem
    exact splitSegment_inv s config (h s hs) sg hmem

/-! ### Speaker homogeneity of split segments (C9) -/

/-- No two words of the segment carry different speaker labels. -/
def segSpkOK (sg : WhisperxSegment) : Prop :=
  ∀ w1 ∈ sg.words.getD [], ∀ w2 ∈ sg.words.getD [], ∀ s1 s2,
    w1.speaker = some s1 → w2.speaker = some s2 → s1 = s2

/-- Every labelled word of the accumulator agrees with the current speaker. -/
def curSpkInv (cur : List WhisperxWord) (spk : Option String) : Prop :=
  ∀ w ∈ cur, ∀ s, w.speaker = some s → spk = some s

theorem curSpkInv_segOK (cur : List WhisperxWord) (spk emit : Option String)
    (h : curSpkInv cur spk) : segSpkOK (createSegmentFromWords cur emit) := by
  intro w1 h1 w2 h2 s1 s2 hs1 hs2
  simp only [createSegmentFromWords, Option.getD_some] at h1 h2
  have e1 := h w1 h1 s1 hs1
  have e2 := h w2 h2 s2 hs2
  rw [e1] at e2
  exact Option.some.inj e2

/-- Generic flush branch for the speaker invariants: emitted segments are
speaker-homogeneous, and the new accumulator is either unchanged (with its
speaker) or empty. -/
theorem ite_flush_spk (C : Prop) [Decidable C] (st : SplitState) (spk : Option String)
    (hres : ∀ sg ∈ st.results, segSpkOK sg)
    (hcur : curSpkInv st.currentWords st.currentSpeaker) :
    (∀ sg ∈ (if C then
        { results := st.results ++ [createSegmentFromWords st.currentWords st.currentSpeaker],
          currentWords := [], currentSpeaker := spk }
      else st : SplitState).results, segSpkOK sg) ∧
    ((if C then
        { results := st.results ++ [createSegmentFromWords st.currentWords st.currentSpeaker],
          currentWords := [], currentSpeaker := spk }
      else st : SplitState).currentWords = st.currentWords ∧
     (if C then
        { results := st.results ++ [createSegmentFromWords st.currentWords st.currentSpeaker],
          currentWords := [], currentSpeaker := spk }
      else st : SplitState).currentSpeaker = st.currentSpeaker ∨
     (if C then
        { results := st.results ++ [createSegmentFromWords st.currentWords st.currentSpeaker],
          currentWords := [], currentSpeaker := spk }
      else st : SplitState).currentWords = []) := by
  split_ifs with h
  · refine ⟨?_, Or.inr rfl⟩
    intro sg hsg
    rcases List.mem_append.1 hsg with hsg | hsg
    · exact hres sg hsg
    · simp only [List.mem_singleton] at hsg
      subst hsg
      exact curSpkInv_segOK _ _ _ hcur
  · exact ⟨hres, Or.inl ⟨rfl, rfl⟩⟩

theorem speakerFlush_spk (config : NormalizationConfig) (st : SplitState) (w : WhisperxWord)
    (hres : ∀ sg ∈ st.results, segSpkOK sg)
    (hcur : curSpkInv st.currentWords st.currentSpeaker) :
    (∀ sg ∈ (speakerFlush config st w).results, segSpkOK sg) ∧
    ((speakerFlush config st w).currentWords = st.currentWords ∧
      (speakerFlush config st w).currentSpeaker = st.currentSpeaker ∨
     (speakerFlush config st w).currentWords = []) :=
  ite_flush_spk _ st _ hres hcur

theorem hardFlush_spk (config : NormalizationConfig) (st : SplitState) (w : WhisperxWord)
    (hres : ∀ sg ∈ st.results, segSpkOK sg)
    (hcur : curSpkInv st.currentWords st.currentSpeaker) :
    (∀ sg ∈ (hardFlush config st w).results, segSpkOK sg) ∧
    ((hardFlush config st w).currentWords = st.currentWords ∧
      (hardFlush config st w).currentSpeaker = st.currentSpeaker ∨
     (hardFlush config st w).currentWords = []) :=
  ite_flush_spk _ st _ hres hcur

theorem softFlush_spk (config : NormalizationConfig) (isLast : Bool)
    (st : SplitState) (w : WhisperxWord)
    (hres : ∀ sg ∈ st.results, segSpkOK sg)
    (hcur : curSpkInv st.currentWords st.currentSpeaker) :
    (∀ sg ∈ (softFlush config isLast st w).results, segSpkOK sg) ∧
    ((softFlush config isLast st w).currentWords = st.currentWords ∧
      (softFlush config isLast st w).currentSpeaker = st.currentSpeaker ∨
     (softFlush config isLast st w).currentWords = []) :=
  ite_flush_spk _ st _ hres hcur

/-- After the speaker flush (with splitting enabled), an accumulator that
still contains words cannot conflict with the incoming word's label. -/
theorem speakerFlush_no_conflict (config : NormalizationConfig) (st : SplitState)
    (w : WhisperxWord) (hsplit : config.splitSegmentAtSpeakerChange = true) :
    w.speaker.isSome → (speakerFlush config st w).currentSpeaker.isSome →
    w.speaker ≠ (speakerFlush config st w).currentSpeaker →
    (speakerFlush config st w).currentWords = [] := by
  intro hw hs hne
  unfold speakerFlush at *
  split_ifs at * with h
  · rfl
  · by_cases hc : st.currentWords = []
    · exact hc
    · exact absurd ⟨hsplit, hw, hs, hne, hc⟩ h

theorem curSpkInv_of_flushed (cur : List WhisperxWord) (spk spk2 : Option String)
    (h : curSpkInv cur spk) (heq : cur = [] ∨ spk2 = spk) : curSpkInv cur spk2 := by
  rcases heq with rfl | rfl
  · intro w hw; simp at hw
  · exact h

/-- One `splitStep` preserves the speaker invariants when speaker splitting is
enabled. -/
theorem splitStep_spk (config : NormalizationConfig) (isLast : Bool)
    (st : SplitState) (w : WhisperxWord)
    (hsplit : config.splitSegmentAtSpeakerChange = true)
    (hres : ∀ sg ∈ st.results, segSpkOK sg)
    (hcur : curSpkInv st.currentWords st.currentSpeaker) :
    (∀ sg ∈ (splitStep config isLast st w).results, segSpkOK sg) ∧
    curSpkInv (splitStep config isLast st w).currentWords
      (splitStep config isLast st w).currentSpeaker := by
  unfold splitStep
  obtain ⟨h1, h1c⟩ := speakerFlush_spk config st w hres hcur
  set st1 := speakerFlush config st w with hst1
  have hcur1 : curSpkInv st1.currentWords st1.currentSpeaker := by
    rcases h1c with ⟨he1, he2⟩ | he
    · rw [he1, he2]; exact hcur
    · rw [he]; intro x hx; simp at hx
  obtain ⟨h2, h2c⟩ := hardFlush_spk config st1 w h1 hcur1
  set st2 := hardFlush config st1 w with hst2
  have hcur2 : curSpkInv st2.currentWords st2.currentSpeaker := by
    rcases h2c with ⟨he1, he2⟩ | he
    · rw [he1, he2]; exact hcur1
    · rw [he]; intro x hx; simp at hx
  -- The only subtle step: the append keeps the invariant.
  have hcur3 : curSpkInv (appendWord st2 w).currentWords
      (appendWord st2 w).currentSpeaker := by
    intro x hx s hs
    have hx2 : x ∈ st2.currentWords ++ [w] := hx
    show (match w.speaker with | some s => some s | none => st2.currentSpeaker) = some s
    rcases List.mem_append.1 hx2 with hx2 | hx2
    · -- x comes from the accumulator
      cases hwsp : w.speaker with
      | none => exact hcur2 x hx2 s hs
      | some a =>
        -- if the labels conflicted, the speaker flush emptied the accumulator
        have hspk2 : st2.currentSpeaker = some s := hcur2 x hx2 s hs
        by_cases hax : a = s
        · subst hax; rfl
        · exfalso
          -- conflict: w.speaker = some a ≠ some s = currentSpeaker
          have hne : w.speaker ≠ st1.currentSpeaker := by
            have hst1spk : st1.currentSpeaker = some s := by
              rcases h2c with ⟨he1, he2⟩ | he
              · rw [← he2]; exact hspk2
              · -- hardFlush emptied the accumulator: x cannot be in it
                rw [he] at hx2; simp at hx2
            rw [hwsp, hst1spk]
            simp [hax]
          have hempty := speakerFlush_no_conflict config st w hsplit
            (by rw [hwsp]; rfl)
            (by
              have hst1spk : st1.currentSpeaker = some s := by
                rcases h2c with ⟨he1, he2⟩ | he
                · rw [← he2]; exact hspk2
                · rw [he] at hx2; simp at hx2
              rw [hst1spk]; rfl)
            hne
          -- the accumulator was empty after the speaker flush, so x ∉ it
          rcases h2c with ⟨he1, _⟩ | he
          · rw [he1, hempty] at hx2; simp at hx2
          · rw [he] at hx2; simp at hx2
    · -- x is the appended word itself
      simp only [List.mem_singleton] at hx2
      subst hx2
      rw [hs]
  obtain ⟨h3, h3c⟩ := softFlush_spk config isLast (appendWord st2 w) w h2 hcur3
  refine ⟨h3, ?_⟩
  rcases h3c with ⟨he1, he2⟩ | he
  · rw [he1, he2]; exact hcur3
  · rw [he]; intro x hx; simp at hx

/-- Every segment emitted by `splitSegment` is speaker-homogeneous when
speaker splitting is enabled. -/
theorem splitSegment_spk (segment : WhisperxSegment) (config : NormalizationConfig)
    (hsplit : config.splitSegmentAtSpeakerChange = true) :
    ∀ sg ∈ splitSegment segment config, segSpkOK sg := by
  unfold splitSegment
  have key : ∀ (l : List (Nat × WhisperxWord)) (st : SplitState),
      (∀ sg ∈ st.results, segSpkOK sg) →
      curSpkInv st.currentWords st.currentSpeaker →
      (∀ sg ∈ (l.foldl (fun st (wi : Nat × WhisperxWord) =>
          splitStep config (wi.1 = (segment.words.getD []).length - 1) st wi.2) st).results,
        segSpkOK sg) ∧
      curSpkInv
        (l.foldl (fun st (wi : Nat × WhisperxWord) =>
          splitStep config (wi.1 = (segment.words.getD []).length - 1) st wi.2) st).currentWords
        (l.foldl (fun st (wi : Nat × WhisperxWord) =>
          splitStep config (wi.1 = (segment.words.getD []).length - 1) st wi.2) st).currentSpeaker := by
    intro l
    induction l with
    | nil => intro st hres hcur; exact ⟨hres, hcur⟩
    | cons wi rest ih =>
      intro st hres hcur
      rw [List.foldl_cons]
      obtain ⟨h1, h2⟩ := splitStep_spk config _ st wi.2 hsplit hres hcur
      exact ih _ h1 h2
  obtain ⟨hres, hcur⟩ := key (segment.words.getD []).enum ⟨[], [], segment.speaker⟩
    (by simp) (by intro x hx; simp at hx)
  unfold finalFlush
  split_ifs with hne
  · intro sg hsg
    rcases List.mem_append.1 hsg with hsg | hsg
    · exact hres sg hsg
    · simp only [List.mem_singleton] at hsg
      subst hsg
      exact curSpkInv_segOK _ _ _ hcur
  · exact hres

/-- The flush shape of a speaker change (C9, first half): when the incoming
word carries a label different from the accumulator's (both present) and the
accumulator is non-empty, the accumulator is emitted first and the word starts
the new accumulator (possibly immediately emitted alone by the soft
punctuation flush). -/
theorem splitStep_speaker_change (config : NormalizationConfig) (isLast : Bool)
    (st : SplitState) (w : WhisperxWord) (a b : String)
    (hsplit : config.splitSegmentAtSpeakerChange = true)
    (hw : w.speaker = some a) (hs : st.currentSpeaker = some b) (hab : a ≠ b)
    (hcur : st.currentWords ≠ []) :
    ∃ t, (splitStep config isLast st w).results =
        st.results ++ createSegmentFromWords st.currentWords st.currentSpeaker :: t ∧
      (t.flatMap fun sg => sg.words.getD []) ++
        (splitStep config isLast st w).currentWords = [w] := by
  have hcond : config.splitSegmentAtSpeakerChange ∧ w.speaker.isSome ∧
      st.currentSpeaker.isSome ∧ w.speaker ≠ st.currentSpeaker ∧
      st.currentWords ≠ [] := by
    refine ⟨hsplit, by rw [hw]; rfl, by rw [hs]; rfl, ?_, hcur⟩
    rw [hw, hs]
    simp [hab]
  unfold splitStep
  rw [show speakerFlush config st w =
      { results := st.results ++ [createSegmentFromWords st.currentWords st.currentSpeaker],
        currentWords := [], currentSpeaker := w.speaker } by
    unfold speakerFlush; rw [if_pos hcond]]
  rw [show hardFlush config
      ({ results := st.results ++ [createSegmentFromWords st.currentWords st.currentSpeaker],
         currentWords := [], currentSpeaker := w.speaker } : SplitState) w =
      { results := st.results ++ [createSegmentFromWords st.currentWords st.currentSpeaker],
        currentWords := [], currentSpeaker := w.speaker } by
    unfold hardFlush
    rw [if_neg]
    simp]
  unfold appendWord softFlush
  split_ifs with hsoft
  · refine ⟨[createSegmentFromWords [w]
      (match w.speaker with | some s => some s | none => w.speaker)], ?_, ?_⟩
    · simp
    · simp [createSegmentFromWords]
  · exact ⟨[], by simp, by simp⟩

/-! ## Replacement-step invariant (C1) -/

/-- The per-segment replacement body either keeps the segment verbatim or
replaces it by a reconciled segment whose patched words come from
`textToWords`. -/
theorem applyReplacementsStep_seg (eng : RegexEngine) (compiledRules : List CompiledRule)
    (acc : List WhisperxSegment × ReplacementStats) (segment : WhisperxSegment) :
    (applyReplacementsStep eng compiledRules acc segment).1 = acc.1 ++ [segment] ∨
    ∃ t, (applyReplacementsStep eng compiledRules acc segment).1 =
      acc.1 ++ [reconcileSegment segment (textToWords t)] := by
  unfold applyReplacementsStep
  by_cases h : (applyCompiledRules eng (getSegmentWordsText segment) compiledRules).text =
      getSegmentWordsText segment
  · left
    simp only [if_pos h]
  · right
    exact ⟨(applyCompiledRules eng (getSegmentWordsText segment) compiledRules).text,
      by simp only [if_neg h]⟩

/-- The replacement step preserves the per-segment text invariant: untouched
segments keep it from the input, rewritten segments re-establish it. -/
theorem applyReplacements_inv (eng : RegexEngine) (transcript : WhisperxResult)
    (rules : List ReplacementRule)
    (h : ∀ sg ∈ transcript.segments, segTextInv sg) :
    ∀ sg ∈ (applyReplacements eng transcript rules).1.segments, segTextInv sg := by
  unfold applyReplacements
  split_ifs with hr
  · exact h
  · have key : ∀ (l : List WhisperxSegment), (∀ sg ∈ l, segTextInv sg) →
        ∀ (acc : List WhisperxSegment × ReplacementStats), (∀ sg ∈ acc.1, segTextInv sg) →
        ∀ sg ∈ (l.foldl (applyReplacementsStep eng (compileReplacementRules rules)) acc).1,
          segTextInv sg := by
      intro l
      induction l with
      | nil => intro _ acc hacc; exact hacc
      | cons s rest ih =>
        intro hl acc hacc
        rw [List.foldl_cons]
        refine ih (fun x hx => hl x (List.mem_cons_of_mem _ hx)) _ ?_
        intro sg hsg
        rcases applyReplacementsStep_seg eng (compileReplacementRules rules) acc s with
          he | ⟨t, he⟩
        · rw [he] at hsg
          rcases List.mem_append.1 hsg with hsg | hsg
          · exact hacc sg hsg
          · simp only [List.mem_singleton] at hsg
            subst hsg
            exact hl _ (List.mem_cons_self _ _)
        · rw [he] at hsg
          rcases List.mem_append.1 hsg with hsg | hsg
          · exact hacc sg hsg
          · simp only [List.mem_singleton] at hsg
            subst hsg
            exact reconcileSegment_establishes_inv s (textToWords t) (textToWords_tokens t)
    exact key transcript.segments h ([], ⟨0, 0, []⟩) (by intro sg hsg; simp at hsg)

/-! ## SRT generation lemmas (C6, C7) -/

/-- Words may only gain timing, never lose or change any other field. -/
def fillOnlyWord (w w2 : WhisperxWord) : Prop :=
  w2.word = w.word ∧ w2.speaker = w.speaker ∧ w2.score = w.score ∧
  (∀ x, w.start = some x → w2.start = some x) ∧
  (∀ x, w.«end» = some x → w2.«end» = some x)

/-- Segments may only have missing word timings filled in. -/
def fillOnlySegment (s s2 : WhisperxSegment) : Prop :=
  s2.start = s.start ∧ s2.«end» = s.«end» ∧ s2.text = s.text ∧ s2.speaker = s.speaker ∧
  s2.words.isSome = s.words.isSome ∧
  List.Forall₂ fillOnlyWord (s.words.getD []) (s2.words.getD [])

theorem fillOnlyWord_refl (w : WhisperxWord) : fillOnlyWord w w :=
  ⟨rfl, rfl, rfl, fun _ hx => hx, fun _ hx => hx⟩

theorem fillOnlySegment_refl (s : WhisperxSegment) : fillOnlySegment s s :=
  ⟨rfl, rfl, rfl, rfl, rfl, List.forall₂_same.2 fun w _ => fillOnlyWord_refl w⟩

theorem forall₂_enumFrom_map {f : Nat × WhisperxWord → WhisperxWord}
    (hf : ∀ i w, fillOnlyWord w (f (i, w))) :
    ∀ (ws : List WhisperxWord) (n : Nat),
      List.Forall₂ fillOnlyWord ws ((ws.enumFrom n).map f) := by
  intro ws
  induction ws with
  | nil => intro n; simp
  | cons w rest ih =>
    intro n
    simp only [List.enumFrom, List.map_cons]
    exact List.Forall₂.cons (hf n w) (ih (n + 1))

/-- `distributeTimingIfMissing` only fills missing timings. -/
theorem distribute_fillOnly (ws : List WhisperxWord) (a b : ℚ) :
    List.Forall₂ fillOnlyWord ws (distributeTimingIfMissing ws a b) := by
  unfold distributeTimingIfMissing
  exact forall₂_enumFrom_map
    (fun i w => ⟨rfl, rfl, rfl,
      fun x hx => by simp only; rw [hx],
      fun x hx => by simp only; rw [hx]⟩) ws 0

/-- The word list returned by `generateHighlightedCues` only has missing
timings filled in. -/
theorem generateHighlightedCues_words_fillOnly (words : List WhisperxWord)
    (speaker prev : Option String) (config : CaptionsConfig) (a b : ℚ) :
    List.Forall₂ fillOnlyWord words
      (generateHighlightedCues words speaker prev config a b).2 := by
  by_cases h1 : words = []
  · subst h1
    simp [generateHighlightedCues]
  · have hfo : List.Forall₂ fillOnlyWord words
        (if hasValidSegmentTiming a b = true then distributeTimingIfMissing words a b
         else words) := by
      split_ifs with h2
      · exact distribute_fillOnly words a b
      · exact List.forall₂_same.2 fun w _ => fillOnlyWord_refl w
    unfold generateHighlightedCues
    rw [if_neg h1]
    cases hfind : (if hasValidSegmentTiming a b = true then
        distributeTimingIfMissing words a b else words).find? hasValidTiming with
    | none => simpa [hfind] using hfo
    | some w1 => simpa [hfind] using hfo

/-- One `generateSrt` loop iteration appends exactly one rebuilt segment,
related to the input segment by fill-only. -/
theorem generateSrtStep_seglist (config : CaptionsConfig)
    (st : List String × Nat × Option String × List WhisperxSegment)
    (s : WhisperxSegment) :
    ∃ s2, (generateSrtStep config st s).2.2.2 = st.2.2.2 ++ [s2] ∧ fillOnlySegment s s2 ∧
      (config.highlightWords = false → s2 = s) := by
  unfold generateSrtStep
  by_cases h : config.highlightWords = true ∧ s.words.getD [] ≠ []
  · refine ⟨{ s with words := some (generateHighlightedCues (s.words.getD [])
        (some (getSegmentSpeaker s)) st.2.2.1 config s.start s.«end»).2 }, ?_, ?_, ?_⟩
    · simp only [if_pos h]
    · refine ⟨rfl, rfl, rfl, rfl, ?_, ?_⟩
      · cases hws : s.words with
        | none => simp [hws] at h
        | some ws => simp [hws]
      · simp only [Option.getD_some]
        exact generateHighlightedCues_words_fillOnly (s.words.getD []) _ _ config _ _
    · intro hcfg
      rw [hcfg] at h
      simp at h
  · refine ⟨s, ?_, fillOnlySegment_refl s, fun _ => rfl⟩
    simp only [if_neg h]

/-- Folding the `generateSrt` loop: the rebuilt segment list extends the
accumulator by fill-only-related copies of the processed segments; with
highlighting off the copies are verbatim. -/
theorem generateSrt_fold (config : CaptionsConfig) :
    ∀ (l : List WhisperxSegment)
      (st : List String × Nat × Option String × List WhisperxSegment)
      (X : List WhisperxSegment),
      List.Forall₂ fillOnlySegment X st.2.2.2 →
      List.Forall₂ fillOnlySegment (X ++ l)
        (l.foldl (generateSrtStep config) st).2.2.2 := by
  intro l
  induction l with
  | nil => intro st X hX; simpa using hX
  | cons s rest ih =>
    intro st X hX
    rw [List.foldl_cons]
    obtain ⟨s2, he, hfo, _⟩ := generateSrtStep_seglist config st s
    have := ih (generateSrtStep config st s) (X ++ [s])
      (by rw [he]; exact List.rel_append hX (List.forall₂_cons.2 ⟨hfo, by simp⟩))
    simpa using this

/-- The transcript after `generateSrt` is fill-only related to the input. -/
theorem generateSrt_fillOnly (transcript : WhisperxResult) (config : CaptionsConfig) :
    List.Forall₂ fillOnlySegment transcript.segments
      (generateSrt ⟨transcript, config⟩).2.segments := by
  have := generateSrt_fold config transcript.segments ([], 1, none, []) []
    (by simp)
  simpa [generateSrt] using this

/-- With highlighting off, `generateSrt` does not change the transcript. -/
theorem generateSrt_no_highlight (transcript : WhisperxResult) (config : CaptionsConfig)
    (h : config.highlightWords = false) :
    (generateSrt ⟨transcript, config⟩).2 = transcript := by
  have key : ∀ (l : List WhisperxSegment)
      (st : List String × Nat × Option String × List WhisperxSegment),
      (l.foldl (generateSrtStep config) st).2.2.2 = st.2.2.2 ++ l := by
    intro l
    induction l with
    | nil => intro st; simp
    | cons s rest ih =>
      intro st
      rw [List.foldl_cons, ih]
      obtain ⟨s2, he, _, hid⟩ := generateSrtStep_seglist config st s
      rw [he, hid h]
      simp
  unfold generateSrt
  have := key transcript.segments ([], 1, none, [])
  simp only [this]
  rfl

/-- Shape of the cues a `highlightedCueStep` can add: a filler cue carrying
the full unhighlighted segment text, or a highlighted cue of a word with valid
timing. -/
theorem highlightedCueStep_shape (spkPrefix : String) (words : List WhisperxWord)
    (config : CaptionsConfig) (st : List CaptionCue × ℚ) (iw : Nat × WhisperxWord)
    (hiw : words.get? iw.1 = some iw.2)
    (hst : ∀ cue ∈ st.1, cue.text = spkPrefix ++ buildSegmentText words ∨
      ∃ i w, words.get? i = some w ∧ hasValidTiming w = true ∧
        cue.start = w.start.getD 0 ∧ cue.«end» = w.«end».getD 0 ∧
        cue.text = spkPrefix ++ buildHighlightedText words i config.highlightWith) :
    ∀ cue ∈ (highlightedCueStep spkPrefix words config st iw).1,
      cue.text = spkPrefix ++ buildSegmentText words ∨
      ∃ i w, words.get? i = some w ∧ hasValidTiming w = true ∧
        cue.start = w.start.getD 0 ∧ cue.«end» = w.«end».getD 0 ∧
        cue.text = spkPrefix ++ buildHighlightedText words i config.highlightWith := by
  intro cue hcue
  unfold highlightedCueStep at hcue
  dsimp only at hcue
  split_ifs at hcue with h1 h2
  · rcases List.mem_append.1 hcue with hcue | hcue
    · rcases List.mem_append.1 hcue with hcue | hcue
      · exact hst cue hcue
      · simp only [List.mem_singleton] at hcue
        subst hcue
        exact Or.inl rfl
    · simp only [List.mem_singleton] at hcue
      subst hcue
      exact Or.inr ⟨iw.1, iw.2, hiw, h1, rfl, rfl, rfl⟩
  · rcases List.mem_append.1 hcue with hcue | hcue
    · rcases List.mem_append.1 hcue with hcue | hcue
      · exact hst cue hcue
      · simp at hcue
    · simp only [List.mem_singleton] at hcue
      subst hcue
      exact Or.inr ⟨iw.1, iw.2, hiw, h1, rfl, rfl, rfl⟩
  · exact hst cue hcue

/-- Every cue emitted by `generateHighlightedCues` is either a filler cue
carrying the full unhighlighted segment text, or the highlighted cue of a word
with valid timing; a word without valid timing never receives a cue of its
own. -/
theorem generateHighlightedCues_shape (words : List WhisperxWord)
    (speaker prev : Option String) (config : CaptionsConfig) (a b : ℚ) :
    ∀ cue ∈ (generateHighlightedCues words speaker prev config a b).1,
      cue.text = buildSpeakerPrefix speaker prev config.includeSpeakerNames ++
        buildSegmentText (generateHighlightedCues words speaker prev config a b).2 ∨
      ∃ i w, ((generateHighlightedCues words speaker prev config a b).2).get? i = some w ∧
        hasValidTiming w = true ∧
        cue.start = w.start.getD 0 ∧ cue.«end» = w.«end».getD 0 ∧
        cue.text = buildSpeakerPrefix speaker prev config.includeSpeakerNames ++
          buildHighlightedText (generateHighlightedCues words speaker prev config a b).2 i
            config.highlightWith := by
  by_cases h1 : words = []
  · subst h1
    intro cue hcue
    simp [generateHighlightedCues] at hcue
  · set words' := if hasValidSegmentTiming a b = true then
        distributeTimingIfMissing words a b else words with hwords'
    set spkPrefix := buildSpeakerPrefix speaker prev config.includeSpeakerNames with hpfx
    have hres : generateHighlightedCues words speaker prev config a b =
        (match words'.find? hasValidTiming with
         | none => ([], words')
         | some firstValidWord =>
           let st := words'.enum.foldl (highlightedCueStep spkPrefix words' config)
             ([], firstValidWord.start.getD 0)
           (if hasValidSegmentTiming a b ∧ b > st.2 then
             st.1 ++ [⟨st.2, b, spkPrefix ++ buildSegmentText words'⟩]
           else st.1, words')) := by
      unfold generateHighlightedCues
      rw [if_neg h1]
    rw [hres]
    cases hfind : words'.find? hasValidTiming with
    | none => intro cue hcue; simp at hcue
    | some fv =>
      simp only
      have key : ∀ (l : List (Nat × WhisperxWord)),
          (∀ wi ∈ l, words'.get? wi.1 = some wi.2) →
          ∀ (st : List CaptionCue × ℚ),
          (∀ cue ∈ st.1, cue.text = spkPrefix ++ buildSegmentText words' ∨
            ∃ i w, words'.get? i = some w ∧ hasValidTiming w = true ∧
              cue.start = w.start.getD 0 ∧ cue.«end» = w.«end».getD 0 ∧
              cue.text = spkPrefix ++ buildHighlightedText words' i config.highlightWith) →
          ∀ cue ∈ (l.foldl (highlightedCueStep spkPrefix words' config) st).1,
            cue.text = spkPrefix ++ buildSegmentText words' ∨
            ∃ i w, words'.get? i = some w ∧ hasValidTiming w = true ∧
              cue.start = w.start.getD 0 ∧ cue.«end» = w.«end».getD 0 ∧
              cue.text = spkPrefix ++ buildHighlightedText words' i config.highlightWith := by
        intro l
        induction l with
        | nil => intro _ st hst; exact hst
        | cons wi rest ih =>
          intro hl st hst
          rw [List.foldl_cons]
          exact ih (fun x hx => hl x (List.mem_cons_of_mem _ hx)) _
            (highlightedCueStep_shape spkPrefix words' config st wi
              (hl wi (List.mem_cons_self _ _)) hst)
      have henum : ∀ wi ∈ words'.enum, words'.get? wi.1 = some wi.2 := by
        intro wi hwi
        obtain ⟨wi1, wi2⟩ := wi
        obtain ⟨hlt, heq⟩ := List.mem_enum hwi
        simp only
        rw [List.get?_eq_get hlt]
        rw [heq]
        simp [List.get_eq_getElem]
      have hfold := key words'.enum henum ([], fv.start.getD 0)
        (by intro cue hcue; simp at hcue)
      split_ifs with h2
      · intro cue hcue
        rcases List.mem_append.1 hcue with hcue | hcue
        · exact hfold cue hcue
        · simp only [List.mem_singleton] at hcue
          subst hcue
          exact Or.inl rfl
      · exact hfold

/-! ## Concrete sample data -/

/-- A regex engine that never matches; used where only literal rules occur. -/
def noMatchEngine : RegexEngine := ⟨fun _ _ => 0, fun _ _ t => t⟩

def sageWord : WhisperxWord := { word := "sage", start := some 0, «end» := some (3/10) }

def makerWord : WhisperxWord := { word := "maker", start := some (3/10), «end» := some (3/5) }

def rocksWord : WhisperxWord := { word := "rocks", start := some (3/5), «end» := some 1 }

/-- The segment of the replacement end-to-end scenario. -/
def sageSegment : WhisperxSegment :=
  { start := 0, «end» := 1, text := "sage maker rocks",
    words := some [sageWord, makerWord, rocksWord] }

/-- A segment whose `text` field is stale relative to its words array. -/
def staleSegment : WhisperxSegment :=
  { start := 0, «end» := 1, text := "STALE", words := some [{ word := "hi" }] }

/-- A segment whose `text` field agrees with its words array. -/
def tidySegment : WhisperxSegment :=
  { start := 0, «end» := 1, text := "hi there",
    words := some [{ word := "hi" }, { word := "there" }] }

/-- A segment with valid envelope timing but an untimed word. -/
def untimedSegment : WhisperxSegment :=
  { start := 0, «end» := 1, text := "hi", words := some [{ word := "hi" }] }

def aliceWord : WhisperxWord :=
  { word := "I", start := some 0, «end» := some 1, speaker := some "Alice" }

def bobWord : WhisperxWord :=
  { word := "That", start := some 2, «end» := some 3, speaker := some "Bob" }

def timedWord : WhisperxWord := { word := "hi", start := some 0, «end» := some 1 }

/-! ## Claims -/

/-- C1 counterexample: the claimed invariant ("after every pipeline step, for
every segment with a non-empty words array, text equals the space-join of the
word texts") fails as stated: a segment whose rule produces no change is left
untouched by the replacement step, so its stale `text` survives. -/
theorem textInvariant_counterexample :
    ¬ segTextInv (((applyReplacements noMatchEngine ⟨[staleSegment]⟩
      [.literal "zzz" "yyy"]).1.segments).getD 0 defaultSegment) := by decide

/-- C1 (amended): each embedded pipeline step preserves or (re)establishes
the per-segment text invariant rather than guaranteeing it unconditionally:
(i) the replacement step preserves it given it holds on entry (untouched
segments keep their possibly stale text); (ii) normalization establishes it
for every output segment provided the word texts are non-empty and
whitespace-free; (iii) reconciliation with patched words produced by
`textToWords` — the only way the replacement and LLM-refinement steps rewrite
a segment — always establishes it on the touched segment. -/
theorem textInvariant_after_steps :
    (∀ (eng : RegexEngine) (tr : WhisperxResult) (rules : List ReplacementRule),
      (∀ sg ∈ tr.segments, segTextInv sg) →
      ∀ sg ∈ (applyReplacements eng tr rules).1.segments, segTextInv sg) ∧
    (∀ (tr : WhisperxResult) (config : NormalizationConfig),
      (∀ sg ∈ tr.segments, ∀ w ∈ sg.words.getD [], wordWF w) →
      ∀ sg ∈ (normalizeSegments tr config).1.segments, segTextInv sg) ∧
    (∀ (segment : WhisperxSegment) (t : String),
      segTextInv (reconcileSegment segment (textToWords t))) :=
  ⟨applyReplacements_inv, normalizeSegments_inv,
   fun segment t => reconcileSegment_establishes_inv segment (textToWords t)
     (textToWords_tokens t)⟩

/-- Witness for C1 (amended) at concrete inputs. -/
theorem textInvariant_after_steps_witness :
    segTextInv (((applyReplacements noMatchEngine ⟨[tidySegment]⟩
      [.literal "zzz" "yyy"]).1.segments).getD 0 defaultSegment) ∧
    segTextInv (((normalizeSegments ⟨[tidySegment]⟩ {}).1.segments).getD 0 defaultSegment) ∧
    segTextInv (reconcileSegment staleSegment (textToWords "a b")) :=
  ⟨textInvariant_after_steps.1 noMatchEngine ⟨[tidySegment]⟩ [.literal "zzz" "yyy"]
      (by decide) _ (by decide),
   textInvariant_after_steps.2.1 ⟨[tidySegment]⟩ {} (by decide) _
     (by with_unfolding_all decide),
   textInvariant_after_steps.2.2 staleSegment "a b"⟩

set_option maxHeartbeats 4000000 in
/-- C2: on the segment `sage[0,0.3] maker[0.3,0.6] rocks[0.6,1]` with the
single literal rule `sage maker → SageMaker`, `applyReplacements` produces
exactly two words — `SageMaker[0,0.6]` with the adjusted score sentinel and
`rocks[0.6,1]` unchanged — segment text `"SageMaker rocks"`, and stats with
`replacementCounts = {"sage maker->SageMaker": 1}`. -/
theorem replacement_multiword_collapse (eng : RegexEngine) :
    applyReplacements eng ⟨[sageSegment]⟩ [.literal "sage maker" "SageMaker"] =
      (⟨[{ sageSegment with
            text := "SageMaker rocks",
            words := some [⟨"SageMaker", some 0, some (3/5), none, some none⟩,
                           rocksWord] }]⟩,
       ⟨1, 1, [("sage maker->SageMaker", 1)]⟩) := by with_unfolding_all rfl

/-- C3: `computeDiff` terminates and fully consumes both arrays — the
subsequence of KEEP and REMOVE words equals the original array and the
subsequence of KEEP and ADD words equals the patched array, so the walk never
stalls or drops a word. -/
theorem computeDiff_consumes_both (original patched : List String) :
    keepRemoveWords (computeDiff original patched) = original ∧
    keepAddWords (computeDiff original patched) = patched :=
  ⟨(computeDiff_consumes original patched).1, (computeDiff_consumes original patched).2.1⟩

/-- C4: `reconcileSegment` is idempotent — applying the same non-empty
patched word list twice yields a segment identical (words, timings, speakers,
scores and text) to applying it once. -/
theorem reconcileSegment_idempotent (segment : WhisperxSegment) (patched : List String)
    (hp : patched ≠ []) :
    reconcileSegment (reconcileSegment segment patched) patched =
      reconcileSegment segment patched :=
  reconcileSegment_idem segment patched hp

/-- Witness for C4 on a concrete segment and patched list. -/
theorem reconcileSegment_idempotent_witness :
    reconcileSegment (reconcileSegment sageSegment ["SageMaker", "rocks"])
        ["SageMaker", "rocks"] =
      reconcileSegment sageSegment ["SageMaker", "rocks"] :=
  reconcileSegment_idempotent sageSegment ["SageMaker", "rocks"] (by decide)

/-- C5 counterexample: invoked with an empty patched word list on a segment
with non-empty words, `reconcileSegment` does NOT leave the segment
unchanged (and no warning-level stat exists anywhere in the step). -/
theorem emptyPatch_counterexample :
    reconcileSegment sageSegment [] ≠ sageSegment := by decide

/-- C5 (amended): with an empty patched word list and a non-empty original
words array, the reconciler wipes the segment: the words array becomes empty
and the text becomes the empty string (timings are dropped); no warning stat
is raised because none exists in the code. -/
theorem emptyPatch_wipes (segment : WhisperxSegment) (ws : List WhisperxWord)
    (hws : segment.words = some ws) (hne : ws ≠ []) :
    reconcileSegment segment [] = { segment with words := some [], text := "" } :=
  reconcileSegment_empty segment ws hws hne

/-- Witness for C5 (amended) on a concrete segment. -/
theorem emptyPatch_wipes_witness :
    reconcileSegment sageSegment [] = { sageSegment with words := some [], text := "" } :=
  emptyPatch_wipes sageSegment [sageWord, makerWord, rocksWord] rfl (by decide)

/-- C6 counterexample: caption generation DOES mutate the transcript — with
`highlightWords = true`, the SRT renderer fills the missing word timing of a
segment in place, so the transcript after rendering differs from the input. -/
theorem srt_mutates_counterexample :
    (generateSrt ⟨⟨[untimedSegment]⟩, { highlightWords := true }⟩).2 ≠
      ⟨[untimedSegment]⟩ := by with_unfolding_all decide

/-- C6 (amended): the SRT renderer's only mutation is filling missing
per-word timings in highlight mode: with `highlightWords = false` the
transcript is returned unchanged, and in general the output transcript is
pointwise identical to the input except that absent word `start`/`end` values
may become present (word text, speaker, score, segment fields and order are
untouched). -/
theorem srt_mutation_bound (transcript : WhisperxResult) (config : CaptionsConfig) :
    (config.highlightWords = false → (generateSrt ⟨transcript, config⟩).2 = transcript) ∧
    List.Forall₂ fillOnlySegment transcript.segments
      (generateSrt ⟨transcript, config⟩).2.segments :=
  ⟨fun h => generateSrt_no_highlight transcript config h,
   generateSrt_fillOnly transcript config⟩

/-- Witness for C6 (amended): with highlighting off the transcript is
unchanged. -/
theorem srt_mutation_bound_witness :
    (generateSrt ⟨⟨[untimedSegment]⟩, {}⟩).2 = ⟨[untimedSegment]⟩ :=
  (srt_mutation_bound ⟨[untimedSegment]⟩ {}).1 rfl

/-- C7: in word-highlighted caption generation, every emitted cue is either a
filler cue carrying the full unhighlighted segment text or the highlighted
cue of a word with valid timing — a word lacking valid timing never receives
a cue of its own (it appears only inside the unhighlighted text, which joins
all words). -/
theorem untimed_word_no_own_cue (words : List WhisperxWord)
    (speaker prev : Option String) (config : CaptionsConfig) (a b : ℚ)
    (cue : CaptionCue)
    (hcue : cue ∈ (generateHighlightedCues words speaker prev config a b).1) :
    cue.text = buildSpeakerPrefix speaker prev config.includeSpeakerNames ++
      buildSegmentText (generateHighlightedCues words speaker prev config a b).2 ∨
    ∃ i w, ((generateHighlightedCues words speaker prev config a b).2).get? i = some w ∧
      hasValidTiming w = true ∧
      cue.start = w.start.getD 0 ∧ cue.«end» = w.«end».getD 0 ∧
      cue.text = buildSpeakerPrefix speaker prev config.includeSpeakerNames ++
        buildHighlightedText (generateHighlightedCues words speaker prev config a b).2 i
          config.highlightWith :=
  generateHighlightedCues_shape words speaker prev config a b cue hcue

/-- Witness for C7 on a concrete timed word. -/
theorem untimed_word_no_own_cue_witness :
    ((generateHighlightedCues [timedWord] none none {} 0 1).1.getD 0 ⟨0, 0, ""⟩).text =
      buildSpeakerPrefix none none ({} : CaptionsConfig).includeSpeakerNames ++
        buildSegmentText (generateHighlightedCues [timedWord] none none {} 0 1).2 ∨
    ∃ i w, ((generateHighlightedCues [timedWord] none none {} 0 1).2).get? i = some w ∧
      hasValidTiming w = true ∧
      ((generateHighlightedCues [timedWord] none none {} 0 1).1.getD 0 ⟨0, 0, ""⟩).start =
        w.start.getD 0 ∧
      ((generateHighlightedCues [timedWord] none none {} 0 1).1.getD 0 ⟨0, 0, ""⟩).«end» =
        w.«end».getD 0 ∧
      ((generateHighlightedCues [timedWord] none none {} 0 1).1.getD 0 ⟨0, 0, ""⟩).text =
        buildSpeakerPrefix none none ({} : CaptionsConfig).includeSpeakerNames ++
          buildHighlightedText (generateHighlightedCues [timedWord] none none {} 0 1).2 i
            ({} : CaptionsConfig).highlightWith :=
  untimed_word_no_own_cue [timedWord] none none {} 0 1 _ (by decide)

/-- C8: the claimed exact HH:MM:SS.mmm / HH:MM:SS,mmm shape is violated by
the code at seconds = 0.9996 — `Math.round((s % 1) * 1000)` yields 1000, so
the millisecond field has four digits and the seconds field is not
incremented. -/
theorem timestamp_ms_overflow :
    formatVttTimestamp (9996/10000) = "00:00:00.1000" ∧
    formatSrtTimestamp (9996/10000) = "00:00:00,1000" := by with_unfolding_all decide

/-- C9: with `splitSegmentAtSpeakerChange` enabled, (a) whenever the incoming
word carries a speaker label different from the (present) accumulator
speaker and the accumulator is non-empty, the accumulator is emitted as a
segment before the word starts a new one; and (b) no segment emitted by
`splitSegment` contains words carrying two different speaker labels. -/
theorem speaker_change_split (config : NormalizationConfig)
    (hsplit : config.splitSegmentAtSpeakerChange = true) :
    (∀ (isLast : Bool) (st : SplitState) (w : WhisperxWord) (a b : String),
      w.speaker = some a → st.currentSpeaker = some b → a ≠ b →
      st.currentWords ≠ [] →
      ∃ t, (splitStep config isLast st w).results =
          st.results ++ createSegmentFromWords st.currentWords st.currentSpeaker :: t ∧
        (t.flatMap fun sg => sg.words.getD []) ++
          (splitStep config isLast st w).currentWords = [w]) ∧
    (∀ (segment : WhisperxSegment), ∀ sg ∈ splitSegment segment config,
      ∀ w1 ∈ sg.words.getD [], ∀ w2 ∈ sg.words.getD [], ∀ s1 s2,
        w1.speaker = some s1 → w2.speaker = some s2 → s1 = s2) :=
  ⟨fun isLast st w a b hw hs hab hcur =>
     splitStep_speaker_change config isLast st w a b hsplit hw hs hab hcur,
   fun segment sg hsg => splitSegment_spk segment config hsplit sg hsg⟩

/-- Witness for C9 on a concrete speaker change (Alice → Bob). -/
theorem speaker_change_split_witness :
    ∃ t, (splitStep ({} : NormalizationConfig) true ⟨[], [aliceWord], some "Alice"⟩
        bobWord).results =
      [] ++ createSegmentFromWords [aliceWord] (some "Alice") :: t ∧
      (t.flatMap fun sg => sg.words.getD []) ++
        (splitStep ({} : NormalizationConfig) true ⟨[], [aliceWord], some "Alice"⟩
          bobWord).currentWords = [bobWord] :=
  (speaker_change_split {} rfl).1 true ⟨[], [aliceWord], some "Alice"⟩ bobWord
    "Bob" "Alice" rfl rfl (by decide) (by decide)

/-- C10: normalization is word-preserving — the new segment list is the
in-order flat map of the per-segment handler (so the relative segment order
is preserved), and for every segment the concatenation of the emitted
segments' words arrays is exactly the original words array. -/
theorem normalization_word_preserving (transcript : WhisperxResult)
    (config : NormalizationConfig) :
    ((normalizeSegments transcript config).1.segments =
      transcript.segments.flatMap fun s =>
        if s.words.getD [] = [] then [s] else splitSegment s config) ∧
    ∀ segment : WhisperxSegment,
      ((splitSegment segment config).flatMap fun sg => sg.words.getD []) =
        segment.words.getD [] :=
  ⟨normalizeSegments_segments transcript config,
   fun segment => splitSegment_flatten segment config⟩

end Podwhisperer
